import Mathlib

/-!
# Ring-artifact reduction (`RingsReduction.cpp`): a shallow embedding

The C++ `double` is idealised as an ordered field `K` with a floor function
(exact arithmetic, no rounding); the development can be run at `K = ℚ` and
instantiated at `K = ℝ`.  Library functions that are not rational (`sqrt`, `sin`,
`cos`, the constant `M_PI`) and the collaborators whose code is not part of the
translation unit (`Interpolation<short>`, `med_on_ring`, the 3D blurs) are fields
of the structure `Ext`, so every result holds for whatever they compute.

An out-of-range element access, which is undefined behaviour in C++, is a
`Fault.outOfBounds` result here; a failed `smart_assert` is `Fault.assertion`.
The conversions of a `double` to `int`, `unsigned` and `short` are on 32, 32 and 16
bits: `int(x)` is `INT_MIN` when the truncated value does not fit, `unsigned(x)` keeps
the low 32 bits.  The special values of IEEE arithmetic (infinities, NaN) are outside
the model; the results are stated for `dradius > 0`, where the code divides by
`dradius`, and for volumes of at least two slices where the centre of a slice is
interpolated.
-/

namespace RingsReduction

/-! ## Definitions -/

/-- The ways in which a call can fail to return normally. -/
inductive Fault where
  | assertion
  | outOfBounds
  | nullCall
  | allocation
  deriving DecidableEq, Repr

/-- The read `v[i]` of a `std::vector`; an index outside `0 .. size-1`
(a negative `int` converts to a huge `size_t`) is a fault. -/
def vecAt {α : Type} (v : List α) (i : Int) : Except Fault α :=
  if 0 ≤ i then
    match v[i.toNat]? with
    | some x => .ok x
    | none => .error .outOfBounds
  else .error .outOfBounds

/-- The write `v[i] = x` of a `std::vector`. -/
def vecSet {α : Type} (v : List α) (i : Int) (x : α) : Except Fault (List α) :=
  if 0 ≤ i ∧ i.toNat < v.length then .ok (v.set i.toNat x) else .error .outOfBounds

/-- The conversion of a 32-bit `unsigned` value to `int` (two's complement). -/
def unsignedToInt (u : Nat) : Int := if u < 2 ^ 31 then (u : Int) else (u : Int) - 2 ^ 32

/-- The loop `for (i = start; i < start + count; i++) body`, with the state threaded
through the iterations; it stops at the first iteration that faults. -/
def forUp {σ : Type} (body : Nat → σ → Except Fault σ) : Nat → Nat → σ → Except Fault σ
  | _, 0, s => .ok s
  | i, k + 1, s =>
    match body i s with
    | .ok s1 => forUp body (i + 1) k s1
    | .error e => .error e

/-- The loop `for (int i = count-1; i >= 0; i--) body`. -/
def forDown {σ : Type} (body : Nat → σ → Except Fault σ) : Nat → σ → Except Fault σ
  | 0, s => .ok s
  | k + 1, s =>
    match body k s with
    | .ok s1 => forDown body k s1
    | .error e => .error e

/-- A `cv::Mat_<short>`: `px y x` is the element `m(y, x)` (row `y`, column `x`). -/
structure Mat where
  rows : Nat
  cols : Nat
  px : Nat → Nat → Int

/-- Modelled from the spec: the container `Data3D<short>` is not part of the sources;
the spec lists its accessors `SX()/SY()/SZ()`, `get_size()`, `at(x,y,z)`, `reset`,
`resize` and `getMat(z)`.  `vox x y z` is the element `at(x, y, z)`. -/
structure Data3D where
  SX : Nat
  SY : Nat
  SZ : Nat
  vox : Nat → Nat → Nat → Int

/-- Modelled from the spec: `get_size()`, the three dimensions of the volume. -/
def Data3D.get_size (d : Data3D) : Nat × Nat × Nat := (d.SX, d.SY, d.SZ)

/-- Modelled from the spec: `reset(size, v)`, a volume of the given size filled with `v`. -/
def Data3D.reset (size : Nat × Nat × Nat) (v : Int) : Data3D :=
  { SX := size.1, SY := size.2.1, SZ := size.2.2, vox := fun _ _ _ => v }

/-- Modelled from the spec: `resize(size)`, the volume with its dimensions changed
(the contents after a resize are not relied upon). -/
def Data3D.resize (d : Data3D) (size : Nat × Nat × Nat) : Data3D :=
  { SX := size.1, SY := size.2.1, SZ := size.2.2, vox := d.vox }

/-- Modelled from the spec: the write `d.at(x, y, z) = v`. -/
def Data3D.set (d : Data3D) (x y z : Nat) (v : Int) : Data3D :=
  { d with vox := fun x1 y1 z1 => if x1 = x ∧ y1 = y ∧ z1 = z then v else d.vox x1 y1 z1 }

/-- Modelled from the spec: `getMat(z)`, the 2D view of slice `z`, one row per `y`. -/
def Data3D.getMat (d : Data3D) (z : Nat) : Mat :=
  { rows := d.SY, cols := d.SX, px := fun y x => d.vox x y z }

/-- The write `dst(y, x) = v` of a `cv::Mat_<short>`. -/
def Mat.set (m : Mat) (y x : Nat) (v : Int) : Mat :=
  { m with px := fun y1 x1 => if y1 = y ∧ x1 = x then v else m.px y1 x1 }

/-- Modelled from the spec: the enum `PolarRDOption` with its two methods `AVG_DIFF`
and `MED_DIFF`; `undefined` stands for any other value, the `default:` branch of the
`switch` in `polarRD`. -/
inductive PolarRDOption where
  | AVG_DIFF
  | MED_DIFF
  | undefined
  deriving DecidableEq, Repr

/-- What the translation unit takes from outside: the mathematical library
(`sqrt`, `sin`, `cos`, `M_PI`), `Interpolation<short>::isvalid` and `::Get`, the two
overloads of `med_on_ring`, and the 3D image operations `IP::GaussianBlur3D`,
`IP::meanBlur3D` and `subtract3D`. -/
structure Ext (K : Type) where
  sqrt : K → K
  sin : K → K
  cos : K → K
  pi : K
  isvalid : Mat → K → K → Bool
  Get : Mat → K × K → K × K → K → K → K
  med_on_ring : Mat → K × K → Int → K → K
  med_on_ring_v2 : Mat → K × K → Int → K → K → K
  GaussianBlur3D : Data3D → Nat → Data3D
  meanBlur3D : Data3D → Nat → Data3D
  subtract3D : Data3D → Data3D → Data3D

section Defs

variable {K : Type} [LinearOrderedField K] [FloorRing K]

/-- Truncation toward zero: the value of a conversion of a `double` to an integer
type when it fits the type. -/
def truncate (x : K) : Int := if 0 ≤ x then ⌊x⌋ else ⌈x⌉

/-- The conversion `int(x)` / `(int) x` of a `double` to the 32-bit `int`: truncation
toward zero.  When the truncated value is outside `-2^31 .. 2^31-1` the conversion is
undefined in C++; the conversion instruction of the usual targets (`cvttsd2si`) then
gives `INT_MIN = -2^31`, which is the value taken here. -/
def toInt (x : K) : Int :=
  if -(2 ^ 31) ≤ truncate x ∧ truncate x < 2 ^ 31 then truncate x else -(2 ^ 31)

/-- The conversion `unsigned(x)` of a `double`: truncation, kept to 32 bits. -/
def toUnsigned (x : K) : Nat := (truncate x % 2 ^ 32).toNat

/-- The conversion `short(x)` of a `double`: the conversion to `int`, kept to its low
16 bits (two's complement). -/
def toShort (x : K) : Int := (toInt x + 2 ^ 15) % 2 ^ 16 - 2 ^ 15

/-- `RingsReduction::median`: sorts the values and returns
`0.5 * (values[floor(0.5*size)] + values[ceil(0.5*size)])`; `0.0` on an empty vector.
`std::sort` is the ascending sort of the values. -/
def median (values : List K) : Except Fault K :=
  if values.length = 0 then .ok 0
  else
    let sorted := values.insertionSort (· ≤ ·)
    let mid_id : K := (1 / 2) * (values.length : K)
    let id1 : Int := ⌊mid_id⌋
    let id2 : Int := ⌈mid_id⌉
    match vecAt sorted id1, vecAt sorted id2 with
    | .ok a, .ok b => .ok ((1 / 2) * (a + b))
    | .error e, _ => .error e
    | _, .error e => .error e

/-- The four corners of the image relative to the centre of the rings
(the array `corner[4]` of `max_ring_radius`). -/
def corner (center im_size : K × K) : List (K × K) :=
  [ (0 - center.1, 0 - center.2),
    (im_size.1 - center.1, im_size.2 - center.2),
    (0 - center.1, im_size.2 - center.2),
    (im_size.1 - center.1, 0 - center.2) ]

/-- The value of `max_radius_squre` at the end of the loop of `max_ring_radius`:
it starts at `0` and takes the maximum with each squared corner distance. -/
def max_radius_squre (center im_size : K × K) : K :=
  (corner center im_size).foldl (fun acc c => max acc (c.1 * c.1 + c.2 * c.2)) 0

/-- `RingsReduction::max_ring_radius`, with the library `sqrt` as a parameter. -/
def max_ring_radius (sqrt : K → K) (center im_size : K × K) : K :=
  sqrt (max_radius_squre center im_size)

/-- The `rid` of the loop body of `correct_image`:
`min( radius/dradius, (double) correction.size()-1 )`. -/
def clamped_rid (correction : List K) (dradius radius : K) : K :=
  min (radius / dradius) ((correction.length : K) - 1)

/-- The value `c` that the loop body of `correct_image` (both overloads) computes
for a pixel at distance `radius` from the ring centre. -/
def interp_correction (correction : List K) (dradius radius : K) : Except Fault K :=
  let rid := clamped_rid correction dradius radius
  let flo : Int := ⌊rid⌋
  let cei : Int := ⌈rid⌉
  if flo ≠ cei then do
    let a ← vecAt correction flo
    let b ← vecAt correction cei
    pure (a * ((cei : K) - rid) + b * (rid - (flo : K)))
  else vecAt correction flo

/-- The `radius` of the loop body of `correct_image` for the pixel `(x, y)`. -/
def pixel_radius (E : Ext K) (ring_center : K × K) (x y : Nat) : K :=
  let diff_x := (x : K) - ring_center.1
  let diff_y := (y : K) - ring_center.2
  E.sqrt (diff_x * diff_x + diff_y * diff_y)

/-- `RingsReduction::correct_image`, 3D overload, on the slice `z`.  Each pixel of
`src` is read before the same pixel of `dst` is written and no other element is
read, so the result is the same when `dst` is the object `src` itself. -/
def correct_image3D (E : Ext K) (src dst : Data3D) (correction : List K) (z : Nat)
    (ring_center : K × K) (dr : K) : Except Fault Data3D :=
  let dst0 := if dst.get_size ≠ src.get_size then Data3D.reset src.get_size 0 else dst
  forUp (fun x dst =>
    forUp (fun y dst => do
      let c ← interp_correction correction dr (pixel_radius E ring_center x y)
      pure (dst.set x y z (toShort ((src.vox x y z : K) - c)))) 0 src.SY dst)
    0 src.SX dst0

/-- The number of angular samples of `med_diff`:
`std::max( 8, int( 2 * M_PI * bigger ) )`. -/
def med_diff_circumference (E : Ext K) (rid1 rid2 : Int) (dradius : K) : Int :=
  let radius := (rid1 : K) * dradius
  let radius1 := (rid2 : K) * dradius
  let bigger := max radius radius1
  max 8 (toInt (2 * E.pi * bigger))

/-- The two image positions `(x, y)` (inner circle) and `(x1, y1)` (outer circle) of
the `i`-th angular sample of `med_diff`. -/
def med_diff_positions (E : Ext K) (ring_center : K × K) (rid1 rid2 : Int) (dradius : K)
    (i : Nat) : (K × K) × (K × K) :=
  let radius := (rid1 : K) * dradius
  let radius1 := (rid2 : K) * dradius
  let circumference := med_diff_circumference E rid1 rid2 dradius
  let dangle := 2 * E.pi / (circumference : K)
  let angle := (i : K) * dangle
  let sin_angle := E.sin angle
  let cos_angle := E.cos angle
  let x := radius * cos_angle + ring_center.1
  let y := radius * sin_angle + ring_center.2
  let x1 := radius1 * cos_angle + ring_center.1
  let y1 := radius1 * sin_angle + ring_center.2
  ((x, y), (x1, y1))

/-- The test of the `i`-th angular sample of `med_diff`:
`isvalid( m, x1, y1) && isvalid( m, x, y)`. -/
def med_diff_valid (E : Ext K) (m : Mat) (ring_center : K × K) (rid1 rid2 : Int)
    (dradius : K) (i : Nat) : Bool :=
  let p := med_diff_positions E ring_center rid1 rid2 dradius i
  E.isvalid m p.2.1 p.2.2 && E.isvalid m p.1.1 p.1.2

/-- The difference `val - val1` of the `i`-th angular sample of `med_diff`. -/
def med_diff_value (E : Ext K) (m : Mat) (ring_center : K × K) (rid1 rid2 : Int)
    (dradius : K) (i : Nat) : K :=
  let p := med_diff_positions E ring_center rid1 rid2 dradius i
  let circumference := med_diff_circumference E rid1 rid2 dradius
  let dangle := 2 * E.pi / (circumference : K)
  let dangle_2 := dangle / 2
  let dradius_2 := dradius / 2
  let val := E.Get m p.1 ring_center dangle_2 dradius_2
  let val1 := E.Get m p.2 ring_center dangle_2 dradius_2
  val - val1

/-- The vector `diffs` at the end of the sampling loop of `med_diff`: it starts as
`diffs(1, 0)` and gets `val - val1` for every angle at which both positions are valid. -/
def med_diff_samples (E : Ext K) (m : Mat) (ring_center : K × K) (rid1 rid2 : Int)
    (dradius : K) : List K :=
  (List.range (med_diff_circumference E rid1 rid2 dradius).toNat).foldl (fun diffs i =>
    if med_diff_valid E m ring_center rid1 rid2 dradius i then
      diffs ++ [med_diff_value E m ring_center rid1 rid2 dradius i]
    else diffs) [0]

/-- `RingsReduction::med_diff`: the median of the sampled differences. -/
def med_diff (E : Ext K) (m : Mat) (ring_center : K × K) (rid1 rid2 : Int)
    (dradius : K) : Except Fault K :=
  median (med_diff_samples E m ring_center rid1 rid2 dradius)

/-- `RingsReduction::avg_on_ring`. -/
def avg_on_ring (E : Ext K) (m : Mat) (ring_center : K × K) (rid : Int)
    (dradius subpixel_on_ring : K) : K :=
  let radius := (rid : K) * dradius
  let circumference : Int := max 8 (toInt (2 * E.pi * radius / subpixel_on_ring))
  let dangle := 2 * E.pi / (circumference : K)
  let dangle_2 := dangle / 2
  let dradius_2 := dradius / 2
  let acc := (List.range circumference.toNat).foldl (fun (acc : Int × K) i =>
    let angle := (i : K) * dangle
    let sin_angle := E.sin angle
    let cos_angle := E.cos angle
    let x := radius * cos_angle + ring_center.1
    let y := radius * sin_angle + ring_center.2
    if E.isvalid m x y then
      (acc.1 + 1, acc.2 + E.Get m (x, y) ring_center dangle_2 dradius_2)
    else acc) (0, 0)
  if 0 < acc.1 then acc.2 / (acc.1 : K) else 0

/-- `RingsReduction::avg_diff_v2`. -/
def avg_diff_v2 (E : Ext K) (m : Mat) (ring_center : K × K) (rid1 rid2 : Int)
    (dr subpixel_on_ring : K) : K :=
  let avg1 := avg_on_ring E m ring_center rid1 dr subpixel_on_ring
  let avg2 := avg_on_ring E m ring_center rid2 dr subpixel_on_ring
  avg1 - avg2

/-- `RingsReduction::med_diff_v2`. -/
def med_diff_v2 (E : Ext K) (m : Mat) (ring_center : K × K) (rid1 rid2 : Int)
    (dr subpixel_on_ring : K) : K :=
  let med1 := E.med_on_ring_v2 m ring_center rid1 dr subpixel_on_ring
  let med2 := E.med_on_ring_v2 m ring_center rid2 dr subpixel_on_ring
  med1 - med2

/-- The bound `num_of_rings-1` of the per-ring loops, computed on `unsigned`. -/
def ring_loop_bound (num_of_rings : Nat) : Nat := (num_of_rings + 2 ^ 32 - 1) % 2 ^ 32

/-- The start `int ri = num_of_rings-2` of the accumulation loop: the difference is
computed on `unsigned` and converted to `int`; the loop runs `ri = start, ..., 0`,
that is `start + 1` times when `start >= 0`. -/
def accumulate_count (num_of_rings : Nat) : Nat :=
  (unsignedToInt ((num_of_rings + 2 ^ 32 - 2) % 2 ^ 32) + 1).toNat

/-- The call `med_diff( src, ring_center, ri, ri+1, dradius )` of `MMDPolarRD`, where
`ri` is `unsigned` and the two ring indices are passed as `int`. -/
def adjacent_diff (E : Ext K) (m : Mat) (ring_center : K × K) (dradius : K) (ri : Nat) :
    Except Fault K :=
  med_diff E m ring_center (unsignedToInt ri) (unsignedToInt ((ri + 1) % 2 ^ 32)) dradius

/-- The first loop of `MMDPolarRD`: `correction[ri] = med_diff(src, c, ri, ri+1, dradius)`
for `ri < num_of_rings-1`.  The iterations write distinct entries and read none, so
the parallel loop is the sequential one. -/
def MMD_differences (E : Ext K) (m : Mat) (ring_center : K × K) (dradius : K)
    (num_of_rings : Nat) (correction : List K) : Except Fault (List K) :=
  forUp (fun ri correction => do
    let d ← adjacent_diff E m ring_center dradius ri
    vecSet correction ri d) 0 (ring_loop_bound num_of_rings) correction

/-- The second loop of `MMDPolarRD`: `correction[ri] += correction[ri+1]` for
`ri = num_of_rings-2` down to `0`. -/
def MMD_accumulate (num_of_rings : Nat) (correction : List K) : Except Fault (List K) :=
  forDown (fun ri correction => do
    let a ← vecAt correction ri
    let b ← vecAt correction ((ri : Int) + 1)
    vecSet correction ri (a + b)) (accumulate_count num_of_rings) correction

/-- The drift removal of `MMDPolarRD`: `drift = correction[ int(100/dradius) ]`, then
`correction[ri] -= drift` for every `ri < num_of_rings`. -/
def MMD_remove_drift (dradius : K) (num_of_rings : Nat) (correction : List K) :
    Except Fault (List K) := do
  let drift ← vecAt correction (toInt (100 / dradius))
  forUp (fun ri correction => do
    let a ← vecAt correction ri
    vecSet correction ri (a - drift)) 0 num_of_rings correction

/-- The correction vector that `MMDPolarRD` builds for the image `m` (the source image
of the 2D overload, a slice of the 3D overload) before it calls `correct_image`. -/
def MMD_correction (E : Ext K) (m : Mat) (ring_center : K × K) (dradius : K)
    (num_of_rings : Nat) : Except Fault (List K) := do
  let correction : List K := List.replicate num_of_rings 0
  let correction ← MMD_differences E m ring_center dradius num_of_rings correction
  let correction ← MMD_accumulate num_of_rings correction
  MMD_remove_drift dradius num_of_rings correction

/-- The `num_of_rings` of the 2D `MMDPolarRD`; `im_size` is `(src.rows, src.cols)`. -/
def MMDPolarRD_num_of_rings (E : Ext K) (src : Mat) (ring_center : K × K) (dradius : K) : Nat :=
  let im_size : K × K := ((src.rows : K), (src.cols : K))
  let max_radius := max_ring_radius E.sqrt ring_center im_size
  toUnsigned (max_radius / dradius)

/-- The correction vector of the 2D `MMDPolarRD`. -/
def MMDPolarRD_correction (E : Ext K) (src : Mat) (ring_center : K × K) (dradius : K) :
    Except Fault (List K) :=
  MMD_correction E src ring_center dradius (MMDPolarRD_num_of_rings E src ring_center dradius)

/-- The ring centre that the 3D `MMDPolarRD` uses for the slice `z`:
`( double(z)*first_slice_centre + double(src.SZ()-z-1)*last_slice_centre ) / (src.SZ()-1)`.
For a volume of one slice the code divides `0` by `0` and the centre is NaN, a value
outside the model (the field division gives `0`): the results that use this centre are
stated for `SZ >= 2`. -/
def slice_centre (first_slice_centre last_slice_centre : K × K) (SZ z : Nat) : K × K :=
  let a : K := ((z : Int) : K)
  let b : K := (((SZ : Int) - (z : Int) - 1 : Int) : K)
  let d : K := (((SZ : Int) - 1 : Int) : K)
  ( (a * first_slice_centre.1 + b * last_slice_centre.1) / d,
    (a * first_slice_centre.2 + b * last_slice_centre.2) / d )

/-- The `num_of_rings` of the 3D `MMDPolarRD`. -/
def MMDPolarRD3D_num_of_rings (E : Ext K) (src : Data3D)
    (first_slice_centre last_slice_centre : K × K) (dradius : K) : Nat :=
  let im_size : K × K := ((src.SX : K), (src.SY : K))
  let max_radius := max (max_ring_radius E.sqrt first_slice_centre im_size)
    (max_ring_radius E.sqrt last_slice_centre im_size)
  toUnsigned (max_radius / dradius)

/-- The correction vector of the 3D `MMDPolarRD` for the slice `z`
(the vector is filled with zeros at the start of every slice). -/
def MMDPolarRD3D_correction (E : Ext K) (src : Data3D)
    (first_slice_centre last_slice_centre : K × K) (dradius : K) (z : Nat) :
    Except Fault (List K) :=
  MMD_correction E (src.getMat z)
    (slice_centre first_slice_centre last_slice_centre src.SZ z) dradius
    (MMDPolarRD3D_num_of_rings E src first_slice_centre last_slice_centre dradius)

/-- The strategy selection of `polarRD`: the function pointer `diff_func`, which
stays `nullptr` for an undefined option. -/
def diff_func (E : Ext K) (o : PolarRDOption) :
    Option (Mat → K × K → Int → Int → K → K → K) :=
  match o with
  | .AVG_DIFF => some (avg_diff_v2 E)
  | .MED_DIFF => some (med_diff_v2 E)
  | .undefined => none

/-- The `num_of_rings` of `polarRD`, an `int`. -/
def polarRD_num_of_rings (E : Ext K) (src : Data3D) (ring_center : K × K) (dr : K) : Int :=
  let im_size : K × K := ((src.SX : K), (src.SY : K))
  let max_radius := max_ring_radius E.sqrt ring_center im_size
  toInt (max_radius / dr)

/-- The correction vector that `polarRD` computes (and copies to `*pCorrection`):
`correction[ri] = diff_func(m, c, ri, const_ri, dr, subpixel_on_ring)` for
`ri < num_of_rings-1`, all on `int`. -/
def polarRD_correction (E : Ext K) (src : Data3D) (o : PolarRDOption) (dr : K)
    (ring_center : K × K) (subpixel_on_ring : K) : Except Fault (List K) :=
  let center_z : Nat := src.SZ / 2
  let num_of_rings := polarRD_num_of_rings E src ring_center dr
  let const_ri : Int := toInt (100 / dr)
  if num_of_rings < 0 then .error .allocation
  else
    forUp (fun ri correction =>
      match diff_func E o with
      | none => .error .nullCall
      | some f =>
        vecSet correction ri
          (f (src.getMat center_z) ring_center ri const_ri dr subpixel_on_ring))
      0 (num_of_rings - 1).toNat (List.replicate num_of_rings.toNat 0)

/-- `RingsReduction::polarRD`; the result is the store after the call and the
correction vector. -/
def polarRD (E : Ext K) (st : Nat → Data3D) (src dst : Nat) (o : PolarRDOption) (dr : K)
    (approx_centre : K × K) (subpixel_on_ring : K) :
    Except Fault ((Nat → Data3D) × List K) :=
  if src = dst then .error .assertion
  else do
    let center_z : Nat := (st src).SZ / 2
    let correction ← polarRD_correction E (st src) o dr approx_centre subpixel_on_ring
    let d ← correct_image3D E (st src) (st dst) correction center_z approx_centre dr
    pure (Function.update st dst d, correction)

/-- `RingsReduction::sijbers`; the result is the store after the call and the
correction vector of the last slice.  There is no assertion on the two addresses:
`dst` is resized when it is another object than `src`. -/
def sijbers (E : Ext K) (st : Nat → Data3D) (src dst : Nat) (dr : K) (ring_centre : K × K)
    (isGaussianBlur : Bool) : Except Fault ((Nat → Data3D) × List K) :=
  let wsize : Nat := 15
  let st1 := if dst ≠ src then Function.update st dst ((st dst).resize (st src).get_size) else st
  let mean := if isGaussianBlur then E.GaussianBlur3D (st1 src) (2 * wsize + 1)
    else E.meanBlur3D (st1 src) wsize
  let diff := E.subtract3D (st1 src) mean
  let im_size : K × K := (((st1 src).SX : K), ((st1 src).SY : K))
  let max_radius := max_ring_radius E.sqrt ring_centre im_size
  let num_of_rings := toUnsigned (max_radius / dr)
  forUp (fun z (s : (Nat → Data3D) × List K) => do
    let m := diff.getMat z
    let correction ← forUp (fun ri correction =>
      vecSet correction ri (E.med_on_ring m ring_centre (unsignedToInt ri) dr))
      0 (ring_loop_bound num_of_rings) s.2
    let d ← correct_image3D E (s.1 src) (s.1 dst) correction z ring_centre dr
    pure (Function.update s.1 dst d, correction)) 0 (st1 src).SZ
    (st1, List.replicate num_of_rings 0)

/-- The test of the `i`-th angular sample of `avg_diff`:
`isvalid(m, pos) && isvalid(m, pos1)`, on the same two positions as `med_diff`. -/
def avg_diff_valid (E : Ext K) (m : Mat) (ring_center : K × K) (rid1 rid2 : Int)
    (dradius : K) (i : Nat) : Bool :=
  let p := med_diff_positions E ring_center rid1 rid2 dradius i
  E.isvalid m p.1.1 p.1.2 && E.isvalid m p.2.1 p.2.2

/-- The pair `(sum, count)` at the end of the sampling loop of `avg_diff`; the number
of samples, the positions and the two interpolated values are those of `med_diff`. -/
def avg_diff_acc (E : Ext K) (m : Mat) (ring_center : K × K) (rid1 rid2 : Int)
    (dradius : K) : K × Int :=
  (List.range (med_diff_circumference E rid1 rid2 dradius).toNat).foldl
    (fun (acc : K × Int) i =>
      if avg_diff_valid E m ring_center rid1 rid2 dradius i then
        (acc.1 + med_diff_value E m ring_center rid1 rid2 dradius i, acc.2 + 1)
      else acc) (0, 0)

/-- `RingsReduction::avg_diff`: `(count>0) ? sum/count : 0`. -/
def avg_diff (E : Ext K) (m : Mat) (ring_center : K × K) (rid1 rid2 : Int)
    (dradius : K) : K :=
  let acc := avg_diff_acc E m ring_center rid1 rid2 dradius
  if 0 < acc.2 then acc.1 / (acc.2 : K) else 0

/-- The read `m(row, col)` of a `cv::Mat_<short>` with `int` indices; an index pair
outside the image is a fault. -/
def Mat.read (m : Mat) (row col : Int) : Except Fault Int :=
  if 0 ≤ row ∧ row < (m.rows : Int) ∧ 0 ≤ col ∧ col < (m.cols : Int) then
    .ok (m.px row.toNat col.toNat)
  else .error .outOfBounds

/-- The range check of `avgI_on_rings`, with `im_size_x = m.rows` and
`im_size_y = m.cols`:
`pixel_x >= 0 && pixel_x < im_size_x && pixel_y >= 0 && pixel_y < im_size_y`. -/
def avgI_range_check (m : Mat) (pixel_x pixel_y : Int) : Bool :=
  decide (0 ≤ pixel_x ∧ pixel_x < (m.rows : Int) ∧ 0 ≤ pixel_y ∧ pixel_y < (m.cols : Int))

/-- The sign `(quadrant&&1)*2-1` of the quadrant loop of `avgI_on_rings`:
`quadrant&&1` is the logical conjunction, `1` for every `quadrant != 0`. -/
def quadrant_sign_x (quadrant : Nat) : Int := (if quadrant ≠ 0 then 1 else 0) * 2 - 1

/-- The sign `(quadrant>>1)*2-1` of the quadrant loop of `avgI_on_rings`. -/
def quadrant_sign_y (quadrant : Nat) : Int := ((quadrant >>> 1 : Nat) : Int) * 2 - 1

/-- The pixel `(pixel_x, pixel_y)` that the quadrant loop of `avgI_on_rings` takes
for the offset `(x, y)` in the given quadrant. -/
def quadrant_pixel (ring_center : K × K) (x y : K) (quadrant : Nat) : Int × Int :=
  ( toInt (ring_center.1 + x * (quadrant_sign_x quadrant : K)),
    toInt (ring_center.2 + y * (quadrant_sign_y quadrant : K)) )

/-- One guarded sample of `avgI_on_rings`: when the range check passes, `m(pixel_y,
pixel_x)` is read and added to `sumI` with the given weight, and the weight is added
to `pixel_count`.  The state is the pair `(sumI, pixel_count)`. -/
def avgI_sample (m : Mat) (pixel : Int × Int) (weight : K) (acc : K × K) :
    Except Fault (K × K) :=
  if avgI_range_check m pixel.1 pixel.2 then do
    let v ← m.read pixel.2 pixel.1
    pure (acc.1 + (v : K) * weight, acc.2 + weight)
  else pure acc

/-- The table `aoffset[4][2]` of `avgI_on_rings`. -/
def aoffset (i : Nat) : Int × Int :=
  match i with
  | 0 => (-1, 0)
  | 1 => (0, -1)
  | 2 => (1, 0)
  | _ => (0, 1)

/-- The pixel of the `i`-th axis sample of `avgI_on_rings`. -/
def axis_pixel (ring_center : K × K) (radius : K) (i : Nat) : Int × Int :=
  ( toInt (ring_center.1 + radius * ((aoffset i).1 : K)),
    toInt (ring_center.2 + radius * ((aoffset i).2 : K)) )

/-- The body of the loop over `y` of `avgI_on_rings` for the offset `(x, y)`: the
offsets farther than `dr` from the ring are skipped, the others are sampled in the
four quadrants with the weight `percentage`. -/
def avgI_offset (E : Ext K) (m : Mat) (ring_center : K × K) (radius dr x y : K)
    (acc : K × K) : Except Fault (K × K) :=
  let x2 := x * x
  let y2 := y * y
  let pixel_radius := E.sqrt (x2 + y2)
  let dist_2_ring := |pixel_radius - radius|
  if dr < dist_2_ring then .ok acc
  else
    let percentage := 1 - dist_2_ring / dr
    forUp (fun quadrant acc =>
      avgI_sample m (quadrant_pixel ring_center x y quadrant) percentage acc) 0 4 acc

/-- `RingsReduction::avgI_on_rings`.  The loop `for( double x = 1; x<=r_max; x++ )`
runs `floor(r_max)` times, and the loop over `y` starts at `max(y_min, 1.0)` and runs
while `y <= y_max`. -/
def avgI_on_rings (E : Ext K) (m : Mat) (ring_center : K × K) (rid : Int) (dr : K) :
    Except Fault K :=
  if ¬ 0 < dr then .error .assertion
  else
    let radius := (rid : K) * dr
    let r_min := radius - dr
    let r_max := radius + dr
    let r_min2 := r_min * r_min
    let r_max2 := r_max * r_max
    do
      let acc ← forUp (fun i acc =>
        let x : K := 1 + (i : K)
        let x2 := x * x
        let y_min := E.sqrt (max 0 (r_min2 - x2))
        let y_max := E.sqrt (r_max2 - x2)
        let y0 := max y_min 1
        forUp (fun j acc => avgI_offset E m ring_center radius dr x (y0 + (j : K)) acc)
          0 (⌊y_max - y0⌋ + 1).toNat acc) 0 ⌊r_max⌋.toNat ((0 : K), (0 : K))
      let acc ← forUp (fun i acc =>
        avgI_sample m (axis_pixel ring_center radius i) 1 acc) 0 4 acc
      if (1 / 100 : K) < acc.2 then pure (acc.1 / acc.2) else pure 0

/-- The `max_radius` of the 2D `MMDPolarRD`; `im_size` is `(src.rows, src.cols)`. -/
def MMDPolarRD_max_radius (E : Ext K) (src : Mat) (ring_center : K × K) : K :=
  max_ring_radius E.sqrt ring_center ((src.rows : K), (src.cols : K))

/-- The `max_radius` of the 3D `MMDPolarRD`, the larger of the radii for the two
given centres. -/
def MMDPolarRD3D_max_radius (E : Ext K) (src : Data3D)
    (first_slice_centre last_slice_centre : K × K) : K :=
  max (max_ring_radius E.sqrt first_slice_centre ((src.SX : K), (src.SY : K)))
    (max_ring_radius E.sqrt last_slice_centre ((src.SX : K), (src.SY : K)))

/-- The per-ring loop of `sijbers` for one slice:
`correction[ri] = med_on_ring( m, ring_centre, ri, dr )` for `ri < num_of_rings-1`. -/
def sijbers_rings (E : Ext K) (m : Mat) (ring_centre : K × K) (dr : K) (num_of_rings : Nat)
    (correction : List K) : Except Fault (List K) :=
  forUp (fun ri correction =>
    vecSet correction ri (E.med_on_ring m ring_centre (unsignedToInt ri) dr))
    0 (ring_loop_bound num_of_rings) correction

end Defs

/-- A stand-in for `sqrt` on `ℚ`: exact on the squares of rationals, rounded down on
numerator and denominator otherwise. -/
def sqrtQ (q : ℚ) : ℚ := (Nat.sqrt q.num.toNat : ℚ) / (Nat.sqrt q.den : ℚ)

/-- An instance of the collaborators over `ℚ` on which the definitions evaluate:
`isvalid` accepts the positions inside `[0, cols-1] x [0, rows-1]`, `Get` reads the
pixel at the truncated position, `sin` and `cos` are their values at the angle `0`,
`med_on_ring` is constantly `0` and the blurs return the volume itself. -/
def testExt : Ext ℚ :=
  { sqrt := sqrtQ
    sin := fun _ => 0
    cos := fun _ => 1
    pi := 22 / 7
    isvalid := fun m x y =>
      decide (0 ≤ x ∧ x ≤ (m.cols : ℚ) - 1 ∧ 0 ≤ y ∧ y ≤ (m.rows : ℚ) - 1)
    Get := fun m p _ _ _ => (m.px (toInt p.2).toNat (toInt p.1).toNat : ℚ)
    med_on_ring := fun _ _ _ _ => 0
    med_on_ring_v2 := fun _ _ _ _ _ => 0
    GaussianBlur3D := fun d _ => d
    meanBlur3D := fun d _ => d
    subtract3D := fun a b =>
      { a with vox := fun x y z => a.vox x y z - b.vox x y z } }

/-- A `SX x SY x SZ` volume of constant intensity `v`. -/
def constVol (SX SY SZ : Nat) (v : Int) : Data3D :=
  { SX := SX, SY := SY, SZ := SZ, vox := fun _ _ _ => v }

/-- A `rows x cols` image of constant intensity `v`. -/
def constMat (rows cols : Nat) (v : Int) : Mat :=
  { rows := rows, cols := cols, px := fun _ _ => v }

/-- A `rows x cols` image whose intensity is the column index (a ramp along `x`). -/
def rampMat (rows cols : Nat) : Mat :=
  { rows := rows, cols := cols, px := fun _ x => (x : Int) }

/-- A `SX x SY x SZ` volume whose intensity is the `x` coordinate. -/
def rampVol (SX SY SZ : Nat) : Data3D :=
  { SX := SX, SY := SY, SZ := SZ, vox := fun x _ _ => (x : Int) }

/-! ## Properties -/

theorem vecAt_ofNat {α : Type} (v : List α) (i : Nat) (h : i < v.length) :
    vecAt v (i : Int) = .ok (v.get ⟨i, h⟩) := by
  simp [vecAt, List.getElem?_eq_getElem h]

theorem vecSet_ofNat {α : Type} (v : List α) (i : Nat) (x : α) (h : i < v.length) :
    vecSet v (i : Int) x = .ok (v.set i x) := by
  simp [vecSet, h]

theorem vecAt_of_getElem? {α : Type} (v : List α) (i : Nat) (x : α) (h : v[i]? = some x) :
    vecAt v (i : Int) = .ok x := by
  simp [vecAt, h]

theorem vecAt_error_of_length_le {α : Type} (v : List α) (i : Int) (h : (v.length : Int) ≤ i) :
    vecAt v i = .error .outOfBounds := by
  unfold vecAt
  split
  · have : v.length ≤ i.toNat := by omega
    simp [List.getElem?_eq_none this]
  · rfl

theorem vecAt_error_of_neg {α : Type} (v : List α) (i : Int) (h : i < 0) :
    vecAt v i = .error .outOfBounds := by
  unfold vecAt
  rw [if_neg (by omega)]

theorem ring_loop_bound_of_pos (n : Nat) (h1 : 1 ≤ n) (h2 : n < 2 ^ 32) :
    ring_loop_bound n = n - 1 := by
  unfold ring_loop_bound; omega

theorem accumulate_count_le (n : Nat) (h2 : n < 2 ^ 32) : accumulate_count n ≤ n - 1 := by
  unfold accumulate_count unsignedToInt
  split <;> omega

theorem bind_ok {α β : Type} (a : α) (f : α → Except Fault β) :
    (Except.ok a >>= f) = f a := rfl

theorem bind_error {α β : Type} (e : Fault) (f : α → Except Fault β) :
    ((Except.error e : Except Fault α) >>= f) = .error e := rfl

theorem forUp_inv {σ : Type} (body : Nat → σ → Except Fault σ) (Inv : Nat → σ → Prop)
    (k : Nat) : ∀ (i : Nat) (s : σ), Inv i s →
    (∀ j t, i ≤ j → j < i + k → Inv j t → ∃ t1, body j t = .ok t1 ∧ Inv (j + 1) t1) →
    ∃ s1, forUp body i k s = .ok s1 ∧ Inv (i + k) s1 := by
  induction k with
  | zero => intro i s h0 _; exact ⟨s, rfl, by simpa using h0⟩
  | succ k ih =>
    intro i s h0 hstep
    obtain ⟨t1, hb, hI⟩ := hstep i s (le_refl i) (by omega) h0
    obtain ⟨s1, hs1, hI1⟩ := ih (i + 1) t1 hI
      (fun j t hj hlt hInv => hstep j t (by omega) (by omega) hInv)
    refine ⟨s1, ?_, ?_⟩
    · simp only [forUp, hb]; exact hs1
    · have : i + (k + 1) = i + 1 + k := by omega
      rw [this]; exact hI1

theorem forDown_inv {σ : Type} (body : Nat → σ → Except Fault σ) (Inv : Nat → σ → Prop)
    (k : Nat) : ∀ (s : σ), Inv k s →
    (∀ j t, j < k → Inv (j + 1) t → ∃ t1, body j t = .ok t1 ∧ Inv j t1) →
    ∃ s1, forDown body k s = .ok s1 ∧ Inv 0 s1 := by
  induction k with
  | zero => intro s h0 _; exact ⟨s, rfl, h0⟩
  | succ k ih =>
    intro s h0 hstep
    obtain ⟨t1, hb, hI⟩ := hstep k s (by omega) h0
    obtain ⟨s1, hs1, hI1⟩ := ih t1 hI (fun j t hj hInv => hstep j t (by omega) hInv)
    refine ⟨s1, ?_, hI1⟩
    simp only [forDown, hb]; exact hs1

theorem forUp_preserves {σ : Type} (body : Nat → σ → Except Fault σ) (P : σ → Prop)
    (hbody : ∀ j t t1, body j t = .ok t1 → P t → P t1) (k : Nat) :
    ∀ (i : Nat) (s s1 : σ), forUp body i k s = .ok s1 → P s → P s1 := by
  induction k with
  | zero =>
    intro i s s1 h hP
    simp only [forUp, Except.ok.injEq] at h
    exact h ▸ hP
  | succ k ih =>
    intro i s s1 h hP
    simp only [forUp] at h
    cases hb : body i s with
    | error e => simp [hb] at h
    | ok t1 =>
      rw [hb] at h
      exact ih (i + 1) t1 s1 h (hbody i s t1 hb hP)

theorem forDown_preserves {σ : Type} (body : Nat → σ → Except Fault σ) (P : σ → Prop)
    (hbody : ∀ j t t1, body j t = .ok t1 → P t → P t1) (k : Nat) :
    ∀ (s s1 : σ), forDown body k s = .ok s1 → P s → P s1 := by
  induction k with
  | zero =>
    intro s s1 h hP
    simp only [forDown, Except.ok.injEq] at h
    exact h ▸ hP
  | succ k ih =>
    intro s s1 h hP
    simp only [forDown] at h
    cases hb : body k s with
    | error e => simp [hb] at h
    | ok t1 =>
      rw [hb] at h
      exact ih t1 s1 h (hbody k s t1 hb hP)

theorem vecSet_length {α : Type} (v v1 : List α) (i : Int) (x : α)
    (h : vecSet v i x = .ok v1) : v1.length = v.length := by
  unfold vecSet at h
  split at h
  · simp only [Except.ok.injEq] at h
    rw [← h]; simp
  · simp at h

theorem MMD_accumulate_ok {K : Type} [LinearOrderedField K] (n : Nat) (hn : n < 2 ^ 32) (c : List K) (hc : c.length = n) :
    ∃ c2, MMD_accumulate n c = .ok c2 ∧ c2.length = n := by
  unfold MMD_accumulate
  have hle := accumulate_count_le n hn
  have h := forDown_inv (fun ri (correction : List K) => do
      let a ← vecAt correction ri
      let b ← vecAt correction ((ri : Int) + 1)
      vecSet correction ri (a + b)) (fun _ (t : List K) => t.length = n)
    (accumulate_count n) c hc
    (by
      intro j t hj ht
      have hj0 : j < t.length := by omega
      have hj1 : j + 1 < t.length := by omega
      refine ⟨t.set j (t.get ⟨j, hj0⟩ + t.get ⟨j + 1, hj1⟩), ?_, by simpa using ht⟩
      have e1 := vecAt_ofNat t j hj0
      have e2 := vecAt_ofNat t (j + 1) hj1
      push_cast at e2
      dsimp only
      rw [e1, e2]
      exact vecSet_ofNat t j _ hj0)
  obtain ⟨c2, hc2, hl⟩ := h
  exact ⟨c2, hc2, hl⟩

section Lemmas

variable {K : Type} [LinearOrderedField K] [FloorRing K]

theorem median_nil : median ([] : List K) = .ok 0 := by
  simp [median]

theorem median_singleton (v : K) : median [v] = .error .outOfBounds := by
  have h1 : ⌊(2⁻¹ : K)⌋ = 0 := by
    rw [Int.floor_eq_iff]; norm_num
  have h2 : ⌈(2⁻¹ : K)⌉ = 1 := by
    rw [Int.ceil_eq_iff]; norm_num
  simp [median, h1, h2, vecAt]

theorem truncate_of_nonneg (x : K) (h : 0 ≤ x) : truncate x = ⌊x⌋ := by
  unfold truncate
  rw [if_pos h]

theorem toInt_of_fits (x : K) (h1 : -(2 ^ 31) ≤ truncate x) (h2 : truncate x < 2 ^ 31) :
    toInt x = truncate x := by
  unfold toInt
  rw [if_pos ⟨h1, h2⟩]

theorem toInt_eq_floor (x : K) (h : 0 ≤ x) (hr : x < 2 ^ 31) : toInt x = ⌊x⌋ := by
  have h0 : 0 ≤ ⌊x⌋ := Int.floor_nonneg.mpr h
  have h1 : ⌊x⌋ < 2 ^ 31 := by
    rw [Int.floor_lt]; exact_mod_cast hr
  rw [toInt_of_fits x (by rw [truncate_of_nonneg x h]; omega)
    (by rw [truncate_of_nonneg x h]; exact h1), truncate_of_nonneg x h]

theorem toInt_nonneg (x : K) (h : 0 ≤ x) (hr : x < 2 ^ 31) : 0 ≤ toInt x := by
  rw [toInt_eq_floor x h hr]
  exact Int.floor_nonneg.mpr h

theorem toInt_of_overflow (x : K) (h : 2 ^ 31 ≤ x) : toInt x = -(2 ^ 31) := by
  have h0 : (0 : K) ≤ x := le_trans (by positivity) h
  have h1 : (2 : Int) ^ 31 ≤ ⌊x⌋ := by
    rw [Int.le_floor]; exact_mod_cast h
  unfold toInt
  rw [truncate_of_nonneg x h0, if_neg (by omega)]

theorem toUnsigned_lt (x : K) : toUnsigned x < 2 ^ 32 := by
  unfold toUnsigned
  have h1 : 0 ≤ truncate x % 2 ^ 32 := Int.emod_nonneg _ (by norm_num)
  have h2 : truncate x % 2 ^ 32 < 2 ^ 32 := Int.emod_lt_of_pos _ (by norm_num)
  omega

theorem MMD_differences_ok (E : Ext K) (m : Mat) (ring_center : K × K) (dradius : K)
    (n : Nat) (hn : n < 2 ^ 32) (h1 : 1 ≤ n) (c : List K) (hc : c.length = n)
    (hdiff : ∀ ri, ri + 1 < n → ∃ d, adjacent_diff E m ring_center dradius ri = .ok d) :
    ∃ c1, MMD_differences E m ring_center dradius n c = .ok c1 ∧ c1.length = n := by
  unfold MMD_differences
  rw [ring_loop_bound_of_pos n h1 hn]
  have h := forUp_inv (fun ri correction => do
      let d ← adjacent_diff E m ring_center dradius ri
      vecSet correction ri d) (fun _ (t : List K) => t.length = n) (n - 1) 0 c hc
    (by
      intro j t _ hj ht
      obtain ⟨d, hd⟩ := hdiff j (by omega)
      refine ⟨t.set j d, ?_, by simpa using ht⟩
      dsimp only
      rw [hd]
      exact vecSet_ofNat t j d (by omega))
  obtain ⟨c1, hc1, hl⟩ := h
  exact ⟨c1, hc1, hl⟩

theorem MMD_remove_drift_spec (dradius : K) (n : Nat) (c : List K) (hc : c.length = n)
    (k : Nat) (hk : toInt (100 / dradius) = (k : Int)) (hkn : k < n) :
    ∃ c3, MMD_remove_drift dradius n c = .ok c3 ∧ c3.length = n ∧
      ∀ i, i < n → c3[i]? = some (c.getD i 0 - c.getD k 0) := by
  unfold MMD_remove_drift
  have hk0 : k < c.length := by omega
  have hdr : vecAt c (toInt (100 / dradius)) = .ok (c.getD k 0) := by
    rw [hk]
    apply vecAt_of_getElem?
    simp [List.getD, List.getElem?_eq_getElem hk0]
  rw [hdr]
  have h := forUp_inv (fun ri (correction : List K) => do
      let a ← vecAt correction ri
      vecSet correction ri (a - c.getD k 0))
    (fun j (t : List K) => t.length = n ∧
      ∀ i, i < n → t[i]? = some (if i < j then c.getD i 0 - c.getD k 0 else c.getD i 0))
    n 0 c
    ⟨hc, by
      intro i hi
      have : i < c.length := by omega
      simp [List.getD, List.getElem?_eq_getElem this]⟩
    (by
      intro j t _ hj ht
      obtain ⟨hl, hv⟩ := ht
      have hj0 : j < t.length := by omega
      have hread : vecAt t (j : Int) = .ok (c.getD j 0) := by
        apply vecAt_of_getElem?
        have := hv j (by omega)
        simpa using this
      refine ⟨t.set j (c.getD j 0 - c.getD k 0), ?_, by simpa using hl, ?_⟩
      · dsimp only
        rw [hread]
        exact vecSet_ofNat t j _ hj0
      · intro i hi
        rw [List.getElem?_set]
        by_cases hij : j = i
        · subst hij
          simp [hj0]
        · rw [if_neg hij, hv i hi]
          have h1 : (i < j + 1) = (i < j) := by
            apply propext; constructor <;> intro h <;> omega
          simp only [h1])
  obtain ⟨c3, hc3, hl, hv⟩ := h
  refine ⟨c3, hc3, hl, ?_⟩
  intro i hi
  have := hv i hi
  simpa [hi] using this

theorem MMD_correction_reference_zero (E : Ext K) (m : Mat) (ring_center : K × K)
    (dradius : K) (n : Nat) (hd : 0 < dradius) (hr : 100 / dradius < 2 ^ 31)
    (hn : n < 2 ^ 32) (hk : toInt (100 / dradius) < (n : Int))
    (hdiff : ∀ ri, ri + 1 < n → ∃ d, adjacent_diff E m ring_center dradius ri = .ok d) :
    ∃ corr, MMD_correction E m ring_center dradius n = .ok corr ∧ corr.length = n ∧
      vecAt corr (toInt (100 / dradius)) = .ok 0 := by
  have hk0 : 0 ≤ toInt (100 / dradius) := toInt_nonneg _ (by positivity) hr
  obtain ⟨k, hkeq⟩ : ∃ k : Nat, toInt (100 / dradius) = (k : Int) :=
    ⟨(toInt (100 / dradius)).toNat, by omega⟩
  have hkn : k < n := by omega
  obtain ⟨c1, hc1, hl1⟩ := MMD_differences_ok E m ring_center dradius n hn (by omega)
    (List.replicate n 0) (by simp) hdiff
  obtain ⟨c2, hc2, hl2⟩ := MMD_accumulate_ok n hn c1 hl1
  obtain ⟨c3, hc3, hl3, hv⟩ := MMD_remove_drift_spec dradius n c2 hl2 k hkeq hkn
  refine ⟨c3, ?_, hl3, ?_⟩
  · unfold MMD_correction
    dsimp only
    rw [hc1, bind_ok, hc2, bind_ok]
    exact hc3
  · rw [hkeq]
    apply vecAt_of_getElem?
    have := hv k hkn
    simpa using this

theorem MMD_correction_reference_outside (E : Ext K) (m : Mat) (ring_center : K × K)
    (dradius : K) (n : Nat)
    (hk : toInt (100 / dradius) < 0 ∨ (n : Int) ≤ toInt (100 / dradius)) :
    ∃ e, MMD_correction E m ring_center dradius n = .error e := by
  unfold MMD_correction
  dsimp only
  cases h1 : MMD_differences E m ring_center dradius n (List.replicate n 0) with
  | error e => exact ⟨e, by rw [bind_error]⟩
  | ok c1 =>
    have hl1 : c1.length = n := by
      have := forUp_preserves (fun ri (correction : List K) => do
          let d ← adjacent_diff E m ring_center dradius ri
          vecSet correction ri d) (fun t => t.length = n)
        (by
          intro j t t1 hb ht
          dsimp only at hb
          cases hd : adjacent_diff E m ring_center dradius j with
          | error e => rw [hd, bind_error] at hb; simp at hb
          | ok d =>
            rw [hd, bind_ok] at hb
            rw [vecSet_length t t1 _ _ hb]; exact ht)
        (ring_loop_bound n) 0 (List.replicate n 0) c1 h1 (by simp)
      exact this
    rw [bind_ok]
    cases h2 : MMD_accumulate n c1 with
    | error e => exact ⟨e, by rw [bind_error]⟩
    | ok c2 =>
      have hl2 : c2.length = n := by
        have := forDown_preserves (fun ri (correction : List K) => do
            let a ← vecAt correction ri
            let b ← vecAt correction ((ri : Int) + 1)
            vecSet correction ri (a + b)) (fun t => t.length = n)
          (by
            intro j t t1 hb ht
            dsimp only at hb
            cases ha : vecAt t (j : Int) with
            | error e => rw [ha, bind_error] at hb; simp at hb
            | ok a =>
              rw [ha, bind_ok] at hb
              cases hb2 : vecAt t ((j : Int) + 1) with
              | error e => rw [hb2, bind_error] at hb; simp at hb
              | ok b =>
                rw [hb2, bind_ok] at hb
                rw [vecSet_length t t1 _ _ hb]; exact ht)
          (accumulate_count n) c1 c2 h2 hl1
        exact this
      rw [bind_ok]
      refine ⟨.outOfBounds, ?_⟩
      unfold MMD_remove_drift
      rcases hk with hk | hk
      · rw [vecAt_error_of_neg c2 _ hk, bind_error]
      · rw [vecAt_error_of_length_le c2 _ (by omega), bind_error]

theorem foldl_keep {α β : Type} (p : β → Bool) (f : β → α) (l : List β) (init : List α)
    (h : ∀ i ∈ l, p i = false) :
    l.foldl (fun diffs i => if p i then diffs ++ [f i] else diffs) init = init := by
  induction l generalizing init with
  | nil => rfl
  | cons a l ih =>
    have ha : p a = false := h a (List.mem_cons_self a l)
    simp only [List.foldl_cons, ha]
    exact ih init (fun i hi => h i (List.mem_cons_of_mem a hi))

theorem foldl_length_le {α β : Type} (p : β → Bool) (f : β → α) (l : List β) :
    ∀ init : List α, init.length ≤
      (l.foldl (fun diffs i => if p i then diffs ++ [f i] else diffs) init).length := by
  induction l with
  | nil => intro init; exact le_refl _
  | cons a l ih =>
    intro init
    simp only [List.foldl_cons]
    refine le_trans ?_ (ih _)
    split <;> simp

theorem foldl_length_lt {α β : Type} (p : β → Bool) (f : β → α) (l : List β) :
    ∀ init : List α, (∃ i ∈ l, p i = true) → init.length <
      (l.foldl (fun diffs i => if p i then diffs ++ [f i] else diffs) init).length := by
  induction l with
  | nil => intro init h; obtain ⟨i, hi, _⟩ := h; simp at hi
  | cons a l ih =>
    intro init h
    simp only [List.foldl_cons]
    by_cases ha : p a = true
    · rw [if_pos ha]
      refine lt_of_lt_of_le ?_ (foldl_length_le p f l _)
      simp
    · rw [if_neg ha]
      apply ih
      obtain ⟨i, hi, hp⟩ := h
      rcases List.mem_cons.mp hi with rfl | hi
      · exact absurd hp ha
      · exact ⟨i, hi, hp⟩

theorem median_ok_of_two_le (values : List K) (hn : 2 ≤ values.length) :
    ∃ d, median values = .ok d := by
  have hlen : (values.insertionSort (· ≤ ·)).length = values.length :=
    List.length_insertionSort _ _
  have hne : values.length ≠ 0 := by omega
  have hcast : (2 : K) ≤ (values.length : K) := by exact_mod_cast hn
  have hfl0 : 0 ≤ ⌊(1 / 2 : K) * (values.length : K)⌋ :=
    Int.floor_nonneg.mpr (by positivity)
  have hce0 : 0 ≤ ⌈(1 / 2 : K) * (values.length : K)⌉ :=
    Int.ceil_nonneg (by positivity)
  have hce1 : ⌈(1 / 2 : K) * (values.length : K)⌉ ≤ (values.length : Int) - 1 := by
    rw [Int.ceil_le]; push_cast; linarith
  have hfl1 : ⌊(1 / 2 : K) * (values.length : K)⌋ ≤ ⌈(1 / 2 : K) * (values.length : K)⌉ :=
    Int.floor_le_ceil _
  obtain ⟨i1, h1⟩ : ∃ i1 : Nat, ⌊(1 / 2 : K) * (values.length : K)⌋ = (i1 : Int) :=
    ⟨_, (Int.toNat_of_nonneg hfl0).symm⟩
  obtain ⟨i2, h2⟩ : ∃ i2 : Nat, ⌈(1 / 2 : K) * (values.length : K)⌉ = (i2 : Int) :=
    ⟨_, (Int.toNat_of_nonneg hce0).symm⟩
  have hi1 : i1 < (values.insertionSort (· ≤ ·)).length := by omega
  have hi2 : i2 < (values.insertionSort (· ≤ ·)).length := by omega
  refine ⟨(1 / 2) * ((values.insertionSort (· ≤ ·)).get ⟨i1, hi1⟩ +
    (values.insertionSort (· ≤ ·)).get ⟨i2, hi2⟩), ?_⟩
  simp only [median, hne, if_false, h1, h2, vecAt_ofNat _ i1 hi1, vecAt_ofNat _ i2 hi2]

theorem med_diff_circumference_ge (E : Ext K) (rid1 rid2 : Int) (dradius : K) :
    8 ≤ (med_diff_circumference E rid1 rid2 dradius).toNat := by
  have : (8 : Int) ≤ med_diff_circumference E rid1 rid2 dradius := by
    unfold med_diff_circumference
    exact le_max_left _ _
  omega

theorem med_diff_ok_of_valid (E : Ext K) (m : Mat) (ring_center : K × K) (rid1 rid2 : Int)
    (dradius : K) (i : Nat) (hi : i < (med_diff_circumference E rid1 rid2 dradius).toNat)
    (hv : med_diff_valid E m ring_center rid1 rid2 dradius i = true) :
    ∃ d, med_diff E m ring_center rid1 rid2 dradius = .ok d := by
  unfold med_diff
  apply median_ok_of_two_le
  have := foldl_length_lt (med_diff_valid E m ring_center rid1 rid2 dradius)
    (med_diff_value E m ring_center rid1 rid2 dradius)
    (List.range (med_diff_circumference E rid1 rid2 dradius).toNat) [0]
    ⟨i, List.mem_range.mpr hi, hv⟩
  simp only [List.length_singleton] at this
  unfold med_diff_samples
  omega

theorem truncate_natCast (n : ℕ) : truncate (n : K) = (n : Int) := by
  unfold truncate
  rw [if_pos (Nat.cast_nonneg n)]
  exact Int.floor_natCast n

theorem toInt_natCast (n : ℕ) (h : n < 2 ^ 31) : toInt (n : K) = (n : Int) := by
  rw [toInt_of_fits _ (by rw [truncate_natCast]; omega) (by rw [truncate_natCast]; omega),
    truncate_natCast]

theorem toUnsigned_natCast (n : ℕ) (h : n < 2 ^ 32) : toUnsigned (n : K) = n := by
  unfold toUnsigned
  rw [truncate_natCast]
  have : (n : Int) % 2 ^ 32 = (n : Int) := Int.emod_eq_of_lt (by omega) (by omega)
  rw [this]
  simp

theorem correct_image3D_spec (E : Ext K) (src dst : Data3D) (correction : List K) (z : Nat)
    (ring_center : K × K) (dr : K) (cval : Nat → Nat → K)
    (h : ∀ x, x < src.SX → ∀ y, y < src.SY →
      interp_correction correction dr (pixel_radius E ring_center x y) = .ok (cval x y)) :
    ∃ d, correct_image3D E src dst correction z ring_center dr = .ok d ∧
      d.get_size = src.get_size ∧
      ∀ x, x < src.SX → ∀ y, y < src.SY →
        d.vox x y z = toShort ((src.vox x y z : K) - cval x y) := by
  unfold correct_image3D
  have h0 : (if dst.get_size ≠ src.get_size then Data3D.reset src.get_size 0
      else dst).get_size = src.get_size := by
    split
    · rfl
    · rename_i hne
      exact not_not.mp hne
  have outer := forUp_inv
    (fun x dst =>
      forUp (fun y (dst : Data3D) => do
        let c ← interp_correction correction dr (pixel_radius E ring_center x y)
        pure (dst.set x y z (toShort ((src.vox x y z : K) - c)))) 0 src.SY dst)
    (fun x (d : Data3D) => d.get_size = src.get_size ∧
      ∀ x1, x1 < x → ∀ y, y < src.SY →
        d.vox x1 y z = toShort ((src.vox x1 y z : K) - cval x1 y))
    src.SX 0 (if dst.get_size ≠ src.get_size then Data3D.reset src.get_size 0 else dst)
    ⟨h0, fun x1 hx1 => absurd hx1 (Nat.not_lt_zero x1)⟩
    (by
      intro x d _ hx hInv
      obtain ⟨hs, hv⟩ := hInv
      have inner := forUp_inv
        (fun y (dst : Data3D) => do
          let c ← interp_correction correction dr (pixel_radius E ring_center x y)
          pure (dst.set x y z (toShort ((src.vox x y z : K) - c))))
        (fun y (d1 : Data3D) => d1.get_size = src.get_size ∧
          (∀ x1, x1 < x → ∀ y1, y1 < src.SY →
            d1.vox x1 y1 z = toShort ((src.vox x1 y1 z : K) - cval x1 y1)) ∧
          ∀ y1, y1 < y → d1.vox x y1 z = toShort ((src.vox x y1 z : K) - cval x y1))
        src.SY 0 d
        ⟨hs, hv, fun y1 hy1 => absurd hy1 (Nat.not_lt_zero y1)⟩
        (by
          intro y d1 _ hy hInv1
          obtain ⟨h1s, h1a, h1b⟩ := hInv1
          refine ⟨d1.set x y z (toShort ((src.vox x y z : K) - cval x y)), ?_, h1s, ?_, ?_⟩
          · dsimp only
            rw [h x (by omega) y (by omega), bind_ok]
            rfl
          · intro x1 hx1 y1 hy1
            have hne : x1 ≠ x := by omega
            simp only [Data3D.set, hne, false_and, if_false]
            exact h1a x1 hx1 y1 hy1
          · intro y1 hy1
            by_cases hyy : y1 = y
            · subst hyy
              simp [Data3D.set]
            · have hlt : y1 < y := by omega
              simp only [Data3D.set, hyy, false_and, and_false, if_false]
              exact h1b y1 hlt)
      obtain ⟨d1, hd1, h1s, h1a, h1b⟩ := inner
      refine ⟨d1, hd1, h1s, ?_⟩
      intro x1 hx1 y hy
      by_cases hxx : x1 = x
      · subst hxx
        exact h1b y (by omega)
      · exact h1a x1 (by omega) y hy)
  obtain ⟨d, hd, hs, hv⟩ := outer
  refine ⟨d, hd, hs, ?_⟩
  intro x hx y hy
  exact hv x (by omega) y hy

theorem truncate_intCast (i : Int) : truncate (i : K) = i := by
  unfold truncate
  split
  · exact Int.floor_intCast i
  · exact Int.ceil_intCast i

theorem toInt_intCast (i : Int) (h1 : -(2 ^ 31) ≤ i) (h2 : i < 2 ^ 31) : toInt (i : K) = i := by
  rw [toInt_of_fits _ (by rw [truncate_intCast]; exact h1) (by rw [truncate_intCast]; exact h2),
    truncate_intCast]

theorem clamped_indices (correction : List K) (dradius radius : K)
    (hn : 1 ≤ correction.length) (hd : 0 < dradius) (hr : 0 ≤ radius) :
    0 ≤ ⌊clamped_rid correction dradius radius⌋ ∧
      ⌊clamped_rid correction dradius radius⌋ ≤ ⌈clamped_rid correction dradius radius⌉ ∧
      ⌈clamped_rid correction dradius radius⌉ ≤ (correction.length : Int) - 1 := by
  have hc1 : (1 : K) ≤ (correction.length : K) := by exact_mod_cast hn
  have h0 : 0 ≤ clamped_rid correction dradius radius :=
    le_min (div_nonneg hr hd.le) (by linarith)
  have h1 : clamped_rid correction dradius radius ≤ (correction.length : K) - 1 :=
    min_le_right _ _
  refine ⟨Int.floor_nonneg.mpr h0, Int.floor_le_ceil _, ?_⟩
  rw [Int.ceil_le]
  push_cast
  exact h1

theorem interp_correction_ok (correction : List K) (dradius radius : K)
    (hn : 1 ≤ correction.length) (hd : 0 < dradius) (hr : 0 ≤ radius) :
    ∃ i1 i2 : Nat, ∃ h1 : i1 < correction.length, ∃ h2 : i2 < correction.length,
      ⌊clamped_rid correction dradius radius⌋ = (i1 : Int) ∧
      ⌈clamped_rid correction dradius radius⌉ = (i2 : Int) ∧
      interp_correction correction dradius radius = .ok
        (if i1 ≠ i2 then
          correction.get ⟨i1, h1⟩ * ((i2 : K) - clamped_rid correction dradius radius) +
          correction.get ⟨i2, h2⟩ * (clamped_rid correction dradius radius - (i1 : K))
        else correction.get ⟨i1, h1⟩) := by
  obtain ⟨h0, h01, h1⟩ := clamped_indices correction dradius radius hn hd hr
  obtain ⟨i1, e1⟩ : ∃ i1 : Nat, ⌊clamped_rid correction dradius radius⌋ = (i1 : Int) :=
    ⟨_, (Int.toNat_of_nonneg h0).symm⟩
  obtain ⟨i2, e2⟩ : ∃ i2 : Nat, ⌈clamped_rid correction dradius radius⌉ = (i2 : Int) :=
    ⟨_, (Int.toNat_of_nonneg (le_trans h0 h01)).symm⟩
  have hi1 : i1 < correction.length := by omega
  have hi2 : i2 < correction.length := by omega
  refine ⟨i1, i2, hi1, hi2, e1, e2, ?_⟩
  unfold interp_correction
  dsimp only
  rw [e1, e2]
  by_cases hne : i1 = i2
  · subst hne
    simp only [ne_eq, not_true_eq_false, if_false]
    exact vecAt_ofNat correction i1 hi1
  · have hne2 : ((i1 : Int) ≠ (i2 : Int)) := by exact_mod_cast hne
    rw [if_pos hne2, if_pos hne, vecAt_ofNat correction i1 hi1, bind_ok,
      vecAt_ofNat correction i2 hi2, bind_ok]
    simp only [Int.cast_natCast]
    rfl

theorem forUp_error {σ : Type} (body : Nat → σ → Except Fault σ) (e : Fault) (k : Nat) :
    ∀ (i : Nat) (s : σ), forUp body i k s = .error e → ∃ j t, body j t = .error e := by
  induction k with
  | zero => intro i s h; simp [forUp] at h
  | succ k ih =>
    intro i s h
    simp only [forUp] at h
    cases hb : body i s with
    | error e1 =>
      rw [hb] at h
      simp only [Except.error.injEq] at h
      exact ⟨i, s, by rw [hb, h]⟩
    | ok t1 =>
      rw [hb] at h
      exact ih (i + 1) t1 h

theorem polarRD_correction_spec (E : Ext K) (src : Data3D) (o : PolarRDOption)
    (f : Mat → K × K → Int → Int → K → K → K) (hf : diff_func E o = some f) (dr : K)
    (ring_center : K × K) (subpixel_on_ring : K) (n : Nat)
    (hn : polarRD_num_of_rings E src ring_center dr = (n : Int)) :
    ∃ corr, polarRD_correction E src o dr ring_center subpixel_on_ring = .ok corr ∧
      corr.length = n ∧
      ∀ i, i < n → corr[i]? = some (if i + 1 < n then
        f (src.getMat (src.SZ / 2)) ring_center i (toInt (100 / dr)) dr subpixel_on_ring
        else 0) := by
  unfold polarRD_correction
  dsimp only
  rw [hn, hf]
  have hnot : ¬ ((n : Int) < 0) := by omega
  rw [if_neg hnot]
  have hcount : ((n : Int) - 1).toNat = n - 1 := by omega
  rw [hcount, Int.toNat_natCast]
  have h := forUp_inv
    (fun ri (correction : List K) =>
      vecSet correction ri
        (f (src.getMat (src.SZ / 2)) ring_center ri (toInt (100 / dr)) dr subpixel_on_ring))
    (fun j (t : List K) => t.length = n ∧
      ∀ i, i < n → t[i]? = some (if i < j then
        f (src.getMat (src.SZ / 2)) ring_center i (toInt (100 / dr)) dr subpixel_on_ring
        else 0))
    (n - 1) 0 (List.replicate n 0)
    ⟨by simp, by
      intro i hi
      simp [List.getElem?_replicate, hi]⟩
    (by
      intro j t _ hj ht
      obtain ⟨hl, hv⟩ := ht
      have hj0 : j < t.length := by omega
      refine ⟨t.set j _, vecSet_ofNat t j _ hj0, by simpa using hl, ?_⟩
      intro i hi
      rw [List.getElem?_set]
      by_cases hij : j = i
      · subst hij
        simp [hj0]
      · rw [if_neg hij, hv i hi]
        have h1 : (i < j + 1) = (i < j) := by
          apply propext; constructor <;> intro h <;> omega
        simp only [h1])
  obtain ⟨corr, hc, hl, hv⟩ := h
  refine ⟨corr, hc, hl, ?_⟩
  intro i hi
  rw [hv i hi]
  have h1 : (i < 0 + (n - 1)) = (i + 1 < n) := by
    apply propext; constructor <;> intro h <;> omega
  simp only [h1]

end Lemmas

/-! ### Evaluations on concrete inputs -/

theorem unsignedToInt_of_lt (u : Nat) (h : u < 2 ^ 31) : unsignedToInt u = (u : Int) := by
  unfold unsignedToInt
  rw [if_pos h]

theorem sqrtQ_nonneg (q : ℚ) : 0 ≤ sqrtQ q := by
  unfold sqrtQ
  positivity

theorem sqrtQ_sq (n : ℕ) : sqrtQ ((n : ℚ) * (n : ℚ)) = (n : ℚ) := by
  have h : ((n : ℚ) * (n : ℚ)) = ((n * n : ℕ) : ℚ) := by push_cast; ring
  rw [h]
  unfold sqrtQ
  rw [Rat.num_natCast, Rat.den_natCast, Int.toNat_natCast, Nat.sqrt_eq]
  simp

theorem sqrtQ_22500 : sqrtQ 22500 = 150 := by
  have := sqrtQ_sq 150
  norm_num at this
  exact this

theorem sqrtQ_2048 : sqrtQ 2048 = 45 := by
  unfold sqrtQ
  have : Nat.sqrt 2048 = 45 := (Nat.eq_sqrt.mpr ⟨by norm_num, by norm_num⟩).symm
  simp [this]

theorem max_radius_squre_90x120 :
    max_radius_squre ((0 : ℚ), (0 : ℚ)) (90, 120) = 22500 := by
  simp only [max_radius_squre, corner, List.foldl]
  norm_num

theorem max_radius_squre_64x64 :
    max_radius_squre ((32 : ℚ), (32 : ℚ)) (64, 64) = 2048 := by
  simp only [max_radius_squre, corner, List.foldl]
  norm_num

theorem num_of_rings_64x64 :
    MMDPolarRD_num_of_rings testExt (constMat 64 64 7) (32, 32) 1 = 45 := by
  unfold MMDPolarRD_num_of_rings max_ring_radius
  simp only [testExt, constMat, Nat.cast_ofNat]
  rw [max_radius_squre_64x64, sqrtQ_2048]
  rw [show (45 / 1 : ℚ) = ((45 : ℕ) : ℚ) by norm_num]
  exact toUnsigned_natCast 45 (by norm_num)

theorem toInt_100_div_50 : toInt (100 / 50 : ℚ) = 2 := by
  rw [show (100 / 50 : ℚ) = ((2 : ℕ) : ℚ) by norm_num]
  exact toInt_natCast 2 (by norm_num)

theorem toInt_100_div_1 : toInt (100 / 1 : ℚ) = 100 := by
  rw [show (100 / 1 : ℚ) = ((100 : ℕ) : ℚ) by norm_num]
  exact toInt_natCast 100 (by norm_num)

theorem sqrtQ_25 : sqrtQ 25 = 5 := by
  have := sqrtQ_sq 5
  norm_num at this
  exact this

theorem max_radius_squre_3x4 :
    max_radius_squre ((0 : ℚ), (0 : ℚ)) (3, 4) = 25 := by
  simp only [max_radius_squre, corner, List.foldl]
  norm_num

theorem vecAt_of_some {α : Type} (v : List α) (i : Nat) (x : α) (h : v[i]? = some x) :
    vecAt v (i : Int) = .ok x := by
  simp [vecAt, h]

theorem accumulate_count_of_le (n : Nat) (h1 : 1 ≤ n) (h2 : n ≤ 2 ^ 31 + 1) :
    accumulate_count n = n - 1 := by
  unfold accumulate_count unsignedToInt
  split <;> omega

theorem accumulate_count_of_gt (n : Nat) (h1 : 2 ^ 31 + 1 < n) (h2 : n < 2 ^ 32) :
    accumulate_count n = 0 := by
  unfold accumulate_count unsignedToInt
  split <;> omega

section LemmasD

variable {K : Type} [LinearOrderedField K]

theorem sum_Ico_split (D : Nat → K) (i k n : Nat) (hik : i ≤ k) (hkn : k ≤ n) :
    (∑ j in Finset.Ico i n, D j) - (∑ j in Finset.Ico k n, D j) = ∑ j in Finset.Ico i k, D j := by
  rw [← Finset.sum_Ico_consecutive D hik hkn]
  ring

theorem ring_differences_spec (f : Nat → Except Fault K) (d : Nat → K) (n : Nat)
    (hn1 : 1 ≤ n) (hn : n < 2 ^ 32) (c : List K) (hc : c.length = n)
    (hf : ∀ i, i + 1 < n → f i = .ok (d i)) :
    ∃ c1, forUp (fun ri (correction : List K) => do
        let v ← f ri
        vecSet correction ri v) 0 (ring_loop_bound n) c = .ok c1 ∧ c1.length = n ∧
      ∀ i, i < n → c1[i]? = some (if i + 1 < n then d i else c.getD i 0) := by
  rw [ring_loop_bound_of_pos n hn1 hn]
  have h := forUp_inv (fun ri (correction : List K) => do
      let v ← f ri
      vecSet correction ri v)
    (fun j (t : List K) => t.length = n ∧
      ∀ i, i < n → t[i]? = some (if i < j then d i else c.getD i 0))
    (n - 1) 0 c
    ⟨hc, by
      intro i hi
      have : i < c.length := by omega
      simp [List.getD, List.getElem?_eq_getElem this]⟩
    (by
      intro j t _ hj ht
      obtain ⟨hl, hv⟩ := ht
      have hj0 : j < t.length := by omega
      refine ⟨t.set j (d j), ?_, by simpa using hl, ?_⟩
      · dsimp only
        rw [hf j (by omega), bind_ok]
        exact vecSet_ofNat t j _ hj0
      · intro i hi
        rw [List.getElem?_set]
        by_cases hij : j = i
        · subst hij
          simp [hj0]
        · rw [if_neg hij, hv i hi]
          have h1 : (i < j + 1) = (i < j) := by
            apply propext; constructor <;> intro h <;> omega
          simp only [h1])
  obtain ⟨c1, hc1, hl, hv⟩ := h
  refine ⟨c1, hc1, hl, ?_⟩
  intro i hi
  rw [hv i hi]
  have h1 : (i < 0 + (n - 1)) = (i + 1 < n) := by
    apply propext; constructor <;> intro h <;> omega
  simp only [h1]

theorem MMD_accumulate_spec (D : Nat → K) (n : Nat) (hn1 : 1 ≤ n) (hn : n ≤ 2 ^ 31 + 1)
    (c0 : List K) (hc : c0.length = n)
    (hv : ∀ i, i < n → c0[i]? = some (D i)) :
    ∃ c2, MMD_accumulate n c0 = .ok c2 ∧ c2.length = n ∧
      ∀ i, i < n → c2[i]? = some (∑ j in Finset.Ico i n, D j) := by
  unfold MMD_accumulate
  rw [accumulate_count_of_le n hn1 hn]
  have h := forDown_inv (fun ri (correction : List K) => do
      let a ← vecAt correction ri
      let b ← vecAt correction ((ri : Int) + 1)
      vecSet correction ri (a + b))
    (fun j (t : List K) => t.length = n ∧
      ∀ i, i < n → t[i]? = some (if j ≤ i then ∑ l in Finset.Ico i n, D l else D i))
    (n - 1) c0
    ⟨hc, by
      intro i hi
      rw [hv i hi]
      by_cases hle : n - 1 ≤ i
      · have hi1 : i = n - 1 := by omega
        rw [if_pos hle, hi1]
        have hIco : Finset.Ico (n - 1) n = {n - 1} := by
          ext x; simp only [Finset.mem_Ico, Finset.mem_singleton]; omega
        rw [hIco, Finset.sum_singleton]
      · rw [if_neg hle]⟩
    (by
      intro j t hj ht
      obtain ⟨hl, hval⟩ := ht
      have hj0 : j < t.length := by omega
      have hj1 : j + 1 < t.length := by omega
      have ra : vecAt t (j : Int) = .ok (D j) := by
        apply vecAt_of_getElem?
        rw [hval j (by omega)]
        simp
      have rb : vecAt t ((j : Int) + 1) = .ok (∑ l in Finset.Ico (j + 1) n, D l) := by
        have := vecAt_of_some t (j + 1) (∑ l in Finset.Ico (j + 1) n, D l)
          (by rw [hval (j + 1) (by omega)]; simp)
        push_cast at this
        exact this
      refine ⟨t.set j (D j + ∑ l in Finset.Ico (j + 1) n, D l), ?_, by simpa using hl, ?_⟩
      · dsimp only
        rw [ra, bind_ok, rb, bind_ok]
        exact vecSet_ofNat t j _ hj0
      · intro i hi
        rw [List.getElem?_set]
        by_cases hij : j = i
        · subst hij
          simp only [if_true, hj0, le_refl]
          rw [Finset.sum_eq_sum_Ico_succ_bot (by omega : j < n)]
        · rw [if_neg hij, hval i hi]
          have h1 : (j + 1 ≤ i) = (j ≤ i) := by
            apply propext; constructor <;> intro h <;> omega
          simp only [h1])
  obtain ⟨c2, hc2, hl, hval⟩ := h
  refine ⟨c2, hc2, hl, ?_⟩
  intro i hi
  rw [hval i hi]
  simp

theorem Mat_read_fault (m : Mat) (row col : Int) (e : Fault)
    (h : m.read row col = .error e) : e = .outOfBounds := by
  unfold Mat.read at h
  split at h
  · simp at h
  · simp only [Except.error.injEq] at h; exact h.symm

theorem avgI_sample_fault (m : Mat) (pixel : Int × Int) (weight : K) (acc : K × K)
    (e : Fault) (h : avgI_sample m pixel weight acc = .error e) : e = .outOfBounds := by
  unfold avgI_sample at h
  split at h
  · cases hr : m.read pixel.2 pixel.1 with
    | error e1 =>
      rw [hr, bind_error] at h
      simp only [Except.error.injEq] at h
      rw [← h]; exact Mat_read_fault _ _ _ _ hr
    | ok v =>
      rw [hr, bind_ok] at h
      simp [pure, Except.pure] at h
  · simp [pure, Except.pure] at h

theorem avgI_sample_skip (m : Mat) (pixel : Int × Int) (weight : K) (acc : K × K)
    (h : avgI_range_check m pixel.1 pixel.2 = false) :
    avgI_sample m pixel weight acc = .ok acc := by
  unfold avgI_sample
  rw [h]
  rfl

theorem avgI_sample_out (m : Mat) (pixel : Int × Int) (weight : K) (acc : K × K)
    (h : avgI_range_check m pixel.1 pixel.2 = true)
    (hr : m.read pixel.2 pixel.1 = .error .outOfBounds) :
    avgI_sample m pixel weight acc = .error .outOfBounds := by
  unfold avgI_sample
  rw [h, if_pos rfl, hr, bind_error]

theorem max_radius_squre_le_64 (c : K × K) (h1 : 0 ≤ c.1) (h2 : c.1 ≤ 64) (h3 : 0 ≤ c.2)
    (h4 : c.2 ≤ 64) : max_radius_squre c (64, 64) ≤ 8192 := by
  simp only [max_radius_squre, corner, List.foldl]
  have a1 : (0 - c.1) * (0 - c.1) ≤ 4096 := by nlinarith
  have a2 : (64 - c.1) * (64 - c.1) ≤ 4096 := by nlinarith
  have b1 : (0 - c.2) * (0 - c.2) ≤ 4096 := by nlinarith
  have b2 : (64 - c.2) * (64 - c.2) ≤ 4096 := by nlinarith
  refine max_le (max_le (max_le (max_le (by norm_num) ?_) ?_) ?_) ?_ <;> linarith

end LemmasD


theorem foldl_all {α β : Type} (p : β → Bool) (f : β → α) (v : α) (l : List β)
    (hp : ∀ i ∈ l, p i = true) (hf : ∀ i ∈ l, f i = v) (init : List α) :
    l.foldl (fun diffs i => if p i then diffs ++ [f i] else diffs) init =
      init ++ List.replicate l.length v := by
  induction l generalizing init with
  | nil => simp
  | cons a l ih =>
    have ha : p a = true := hp a (List.mem_cons_self a l)
    have hfa : f a = v := hf a (List.mem_cons_self a l)
    simp only [List.foldl_cons, ha, if_true, hfa]
    rw [ih (fun i hi => hp i (List.mem_cons_of_mem a hi))
      (fun i hi => hf i (List.mem_cons_of_mem a hi))]
    simp [List.replicate_succ]

theorem sort_zero_replicate {K : Type} [LinearOrderedField K] (c : Nat) (v : K) :
    (0 :: List.replicate c v).insertionSort (· ≤ ·) =
      if v ≤ 0 then List.replicate c v ++ [0] else 0 :: List.replicate c v := by
  have hs := List.sorted_insertionSort (· ≤ ·) (0 :: List.replicate c v)
  have hp := List.perm_insertionSort (· ≤ ·) (0 :: List.replicate c v)
  split
  · rename_i hv
    apply List.eq_of_perm_of_sorted (hp.trans (List.perm_append_singleton 0 _).symm) hs
    unfold List.Sorted
    rw [List.pairwise_append]
    refine ⟨?_, List.pairwise_singleton _ _, ?_⟩
    · rw [List.pairwise_replicate]
      right; exact le_refl v
    · intro a ha b hb
      rw [List.eq_of_mem_replicate ha, List.mem_singleton.mp hb]
      exact hv
  · rename_i hv
    apply List.eq_of_perm_of_sorted hp hs
    unfold List.Sorted
    rw [List.pairwise_cons]
    refine ⟨?_, ?_⟩
    · intro a ha
      rw [List.eq_of_mem_replicate ha]
      exact (not_le.mp hv).le
    · rw [List.pairwise_replicate]
      right; exact le_refl v

section LemmasE
variable {K : Type} [LinearOrderedField K] [FloorRing K]

theorem median_zero_replicate (c : Nat) (v : K) (hc : 3 ≤ c) :
    median (0 :: List.replicate c v) = .ok v := by
  have hcast : (3 : K) ≤ (c : K) := by exact_mod_cast hc
  have hlen : (0 :: List.replicate c v).length = c + 1 := by simp
  have hfl0 : 1 ≤ ⌊(1 / 2 : K) * ((c + 1 : Nat) : K)⌋ := by
    rw [Int.le_floor]; push_cast; linarith
  have hce1 : ⌈(1 / 2 : K) * ((c + 1 : Nat) : K)⌉ ≤ (c : Int) - 1 := by
    rw [Int.ceil_le]; push_cast; linarith
  have hfl1 : ⌊(1 / 2 : K) * ((c + 1 : Nat) : K)⌋ ≤ ⌈(1 / 2 : K) * ((c + 1 : Nat) : K)⌉ :=
    Int.floor_le_ceil _
  obtain ⟨i1, h1⟩ : ∃ i1 : Nat, ⌊(1 / 2 : K) * ((c + 1 : Nat) : K)⌋ = (i1 : Int) :=
    ⟨_, (Int.toNat_of_nonneg (by omega)).symm⟩
  obtain ⟨i2, h2⟩ : ∃ i2 : Nat, ⌈(1 / 2 : K) * ((c + 1 : Nat) : K)⌉ = (i2 : Int) :=
    ⟨_, (Int.toNat_of_nonneg (by omega)).symm⟩
  have hi1 : 1 ≤ i1 ∧ i1 + 1 ≤ c := by omega
  have hi2 : 1 ≤ i2 ∧ i2 + 1 ≤ c := by omega
  have key : ∀ i : Nat, 1 ≤ i → i + 1 ≤ c →
      vecAt ((0 :: List.replicate c v).insertionSort (· ≤ ·)) (i : Int) = .ok v := by
    intro i hi hic
    apply vecAt_of_getElem?
    rw [sort_zero_replicate]
    split
    · rw [List.getElem?_append_left (by simp; omega)]
      simp [List.getElem?_replicate]; omega
    · obtain ⟨j, rfl⟩ : ∃ j, i = j + 1 := ⟨i - 1, by omega⟩
      simp [List.getElem?_replicate]; omega
  unfold median
  rw [if_neg (by simp)]
  simp only [hlen, h1, h2, key i1 hi1.1 hi1.2, key i2 hi2.1 hi2.2]
  congr 1
  ring

theorem med_diff_of_const_samples (E : Ext K) (m : Mat) (ring_center : K × K)
    (rid1 rid2 : Int) (dradius : K) (v : K)
    (hvalid : ∀ i, med_diff_valid E m ring_center rid1 rid2 dradius i = true)
    (hval : ∀ i, med_diff_value E m ring_center rid1 rid2 dradius i = v) :
    med_diff E m ring_center rid1 rid2 dradius = .ok v := by
  unfold med_diff med_diff_samples
  rw [foldl_all _ _ v _ (fun i _ => hvalid i) (fun i _ => hval i)]
  have := med_diff_circumference_ge E rid1 rid2 dradius
  rw [List.length_range]
  exact median_zero_replicate _ v (by omega)

end LemmasE

theorem adjacent_diff_ramp_200x400 (ri : Nat) (hri : ri + 1 < 8) :
    adjacent_diff testExt (rampMat 200 400) (0, 0) 50 ri = .ok (-50) := by
  unfold adjacent_diff
  have h1 : (ri + 1) % 2 ^ 32 = ri + 1 := Nat.mod_eq_of_lt (by omega)
  rw [h1, unsignedToInt_of_lt ri (by omega), unsignedToInt_of_lt (ri + 1) (by omega)]
  apply med_diff_of_const_samples
  · intro i
    simp only [med_diff_valid, med_diff_positions, testExt, rampMat]
    have hlt : ri < 7 := by omega
    interval_cases ri <;> norm_num
  · intro i
    simp only [med_diff_value, med_diff_positions, testExt, rampMat]
    have e1 : (((ri : Int) : ℚ) * 50 * 1 + 0) = ((50 * ri : ℕ) : ℚ) := by push_cast; ring
    have e2 : ((((ri + 1 : ℕ) : Int) : ℚ) * 50 * 1 + 0) = ((50 * (ri + 1) : ℕ) : ℚ) := by
      push_cast; ring
    rw [e1, e2, toInt_natCast _ (by omega), toInt_natCast _ (by omega)]
    simp only [Int.toNat_natCast]
    push_cast
    ring

theorem sqrtQ_200000 : sqrtQ 200000 = 447 := by
  unfold sqrtQ
  have : Nat.sqrt 200000 = 447 := (Nat.eq_sqrt.mpr ⟨by norm_num, by norm_num⟩).symm
  simp [this]

theorem max_radius_squre_200x400 :
    max_radius_squre ((0 : ℚ), (0 : ℚ)) (200, 400) = 200000 := by
  simp only [max_radius_squre, corner, List.foldl]
  norm_num

theorem max_radius_squre_400x200 :
    max_radius_squre ((0 : ℚ), (0 : ℚ)) (400, 200) = 200000 := by
  simp only [max_radius_squre, corner, List.foldl]
  norm_num

theorem toUnsigned_447_div_50 : toUnsigned (447 / 50 : ℚ) = 8 := by
  unfold toUnsigned
  have h : truncate (447 / 50 : ℚ) = 8 := by
    rw [truncate_of_nonneg _ (by norm_num), Int.floor_eq_iff]
    norm_num
  rw [h]
  rfl

theorem toInt_447_div_50 : toInt (447 / 50 : ℚ) = 8 := by
  rw [toInt_eq_floor _ (by norm_num) (by norm_num), Int.floor_eq_iff]
  norm_num

theorem num_of_rings_ramp_200x400 :
    MMDPolarRD_num_of_rings testExt (rampMat 200 400) (0, 0) 50 = 8 := by
  unfold MMDPolarRD_num_of_rings max_ring_radius
  simp only [testExt, rampMat, Nat.cast_ofNat]
  rw [max_radius_squre_200x400, sqrtQ_200000]
  exact toUnsigned_447_div_50

theorem num_of_rings_rampVol_400x200 (SZ : Nat) :
    MMDPolarRD3D_num_of_rings testExt (rampVol 400 200 SZ) (0, 0) (0, 0) 50 = 8 := by
  unfold MMDPolarRD3D_num_of_rings max_ring_radius
  simp only [testExt, rampVol, Nat.cast_ofNat]
  rw [max_radius_squre_400x200, sqrtQ_200000, max_self]
  exact toUnsigned_447_div_50

theorem slice_centre_origin (SZ z : Nat) :
    slice_centre ((0 : ℚ), (0 : ℚ)) (0, 0) SZ z = (0, 0) := by
  simp [slice_centre]

section ClaimsA

variable {K : Type} [LinearOrderedField K] [FloorRing K]

/-- C1 (as amended). For every image, ring centre and `dradius > 0` with
`100/dradius < 2^31` (the conversion `int(100/dradius)` is then defined) such that
the reference index `int(100/dradius)` is smaller than `num_of_rings` and every call
`med_diff(src, centre, ri, ri+1, dradius)` of the first loop returns, the correction
vector that `MMDPolarRD` builds (2D overload, and every slice `z < SZ` of the 3D
overload on a volume of `SZ >= 2` slices) is produced without a fault, has
`num_of_rings` entries, and its entry at `int(100/dradius)` is exactly `0`. -/
theorem C1_reference_entry_zero_when_inside (E : Ext K) (dradius : K) (hd : 0 < dradius)
    (hr : 100 / dradius < 2 ^ 31) :
    (∀ (src : Mat) (ring_center : K × K),
      toInt (100 / dradius) < (MMDPolarRD_num_of_rings E src ring_center dradius : Int) →
      (∀ ri, ri + 1 < MMDPolarRD_num_of_rings E src ring_center dradius →
        ∃ d, adjacent_diff E src ring_center dradius ri = .ok d) →
      ∃ corr, MMDPolarRD_correction E src ring_center dradius = .ok corr ∧
        corr.length = MMDPolarRD_num_of_rings E src ring_center dradius ∧
        vecAt corr (toInt (100 / dradius)) = .ok 0) ∧
    (∀ (src : Data3D) (first_slice_centre last_slice_centre : K × K) (z : Nat),
      2 ≤ src.SZ → z < src.SZ →
      toInt (100 / dradius) <
        (MMDPolarRD3D_num_of_rings E src first_slice_centre last_slice_centre dradius : Int) →
      (∀ ri,
        ri + 1 < MMDPolarRD3D_num_of_rings E src first_slice_centre last_slice_centre dradius →
        ∃ d, adjacent_diff E (src.getMat z)
          (slice_centre first_slice_centre last_slice_centre src.SZ z) dradius ri = .ok d) →
      ∃ corr,
        MMDPolarRD3D_correction E src first_slice_centre last_slice_centre dradius z = .ok corr ∧
        corr.length =
          MMDPolarRD3D_num_of_rings E src first_slice_centre last_slice_centre dradius ∧
        vecAt corr (toInt (100 / dradius)) = .ok 0) := by
  constructor
  · intro src ring_center hk hdiff
    exact MMD_correction_reference_zero E src ring_center dradius
      (MMDPolarRD_num_of_rings E src ring_center dradius) hd hr (toUnsigned_lt _) hk hdiff
  · intro src first_slice_centre last_slice_centre z _ _ hk hdiff
    exact MMD_correction_reference_zero E (src.getMat z)
      (slice_centre first_slice_centre last_slice_centre src.SZ z) dradius
      (MMDPolarRD3D_num_of_rings E src first_slice_centre last_slice_centre dradius)
      hd hr (toUnsigned_lt _) hk hdiff

/-- C1, the amended claim at concrete inputs with `dradius = 50`, where the reference
index is `2`: a `200 x 400` image whose intensity is the column index, with the ring
centre `(0, 0)`, has `num_of_rings = 8` and the differences of adjacent rings are
`-50`; the same for the slice `1` of a volume of two such slices. -/
theorem C1_reference_entry_zero_ramp_200x400 :
    (∃ corr, MMDPolarRD_correction testExt (rampMat 200 400) (0, 0) 50 = .ok corr ∧
      corr.length = 8 ∧ vecAt corr 2 = .ok 0) ∧
    (∃ corr, MMDPolarRD3D_correction testExt (rampVol 400 200 2) (0, 0) (0, 0) 50 1 = .ok corr ∧
      corr.length = 8 ∧ vecAt corr 2 = .ok 0) := by
  have h := C1_reference_entry_zero_when_inside testExt (50 : ℚ) (by norm_num) (by norm_num)
  constructor
  · obtain ⟨corr, hc, hl, hz⟩ := h.1 (rampMat 200 400) (0, 0)
      (by rw [num_of_rings_ramp_200x400, toInt_100_div_50]; norm_num)
      (by
        rw [num_of_rings_ramp_200x400]
        intro ri hri
        exact ⟨_, adjacent_diff_ramp_200x400 ri hri⟩)
    rw [toInt_100_div_50] at hz
    rw [num_of_rings_ramp_200x400] at hl
    exact ⟨corr, hc, hl, hz⟩
  · obtain ⟨corr, hc, hl, hz⟩ := h.2 (rampVol 400 200 2) (0, 0) (0, 0) 1
      (by decide) (by decide)
      (by rw [num_of_rings_rampVol_400x200, toInt_100_div_50]; norm_num)
      (by
        rw [num_of_rings_rampVol_400x200, slice_centre_origin]
        intro ri hri
        exact ⟨_, adjacent_diff_ramp_200x400 ri hri⟩)
    rw [toInt_100_div_50] at hz
    rw [num_of_rings_rampVol_400x200] at hl
    exact ⟨corr, hc, hl, hz⟩

/-- C1, counterexample to the claim as stated: for a `64 x 64` image with the ring
centre `(32, 32)` and `dradius = 1` the vector has `num_of_rings = 45` entries, the
reference index is `100`, and the read of the drift is outside the vector: no
correction vector with a zero reference entry is produced. -/
theorem C1_reference_outside_64x64 :
    (0 : ℚ) < 1 ∧
    ¬ ∃ corr, MMDPolarRD_correction testExt (constMat 64 64 7) (32, 32) 1 = .ok corr ∧
      vecAt corr (toInt (100 / 1 : ℚ)) = .ok 0 := by
  refine ⟨by norm_num, ?_⟩
  rintro ⟨corr, hc, _⟩
  obtain ⟨e, he⟩ := MMD_correction_reference_outside testExt (constMat 64 64 7)
    ((32 : ℚ), (32 : ℚ)) 1 (MMDPolarRD_num_of_rings testExt (constMat 64 64 7) (32, 32) 1)
    (Or.inr (by rw [num_of_rings_64x64, toInt_100_div_1]; norm_num))
  unfold MMDPolarRD_correction at hc
  rw [he] at hc
  exact absurd hc (by simp)

/-- C2 (the code departs from the claim). For every vector of even length `n >= 2`,
`median` returns the single element `s[n/2]` of the sorted sequence `s` (both
`floor(0.5*n)` and `ceil(0.5*n)` are `n/2`), not the average
`(s[n/2-1] + s[n/2]) / 2` of the two middle elements. -/
theorem C2_median_even_length_returns_upper_middle (values : List K)
    (hn : 2 ≤ values.length) (heven : values.length % 2 = 0) :
    ∃ h : values.length / 2 < (values.insertionSort (· ≤ ·)).length,
      median values = .ok ((values.insertionSort (· ≤ ·)).get ⟨values.length / 2, h⟩) := by
  have hlen : (values.insertionSort (· ≤ ·)).length = values.length :=
    List.length_insertionSort _ _
  have hlt : values.length / 2 < (values.insertionSort (· ≤ ·)).length := by
    rw [hlen]; omega
  refine ⟨hlt, ?_⟩
  have hmid : (1 / 2 : K) * (values.length : K) = ((values.length / 2 : Nat) : K) := by
    obtain ⟨m, hm⟩ : ∃ m, values.length = 2 * m := ⟨values.length / 2, by omega⟩
    rw [hm]
    have : 2 * m / 2 = m := by omega
    rw [this]; push_cast; ring
  have hne : values.length ≠ 0 := by omega
  have hfl : ⌊(((values.length / 2 : Nat) : K))⌋ = ((values.length / 2 : Nat) : Int) :=
    Int.floor_natCast _
  have hce : ⌈(((values.length / 2 : Nat) : K))⌉ = ((values.length / 2 : Nat) : Int) :=
    Int.ceil_natCast _
  have hread := vecAt_ofNat (values.insertionSort (· ≤ ·)) (values.length / 2) hlt
  simp only [median, hne, if_false, hmid, hfl, hce, hread]
  congr 1
  ring

/-- C2, at the input of the claim: `median([1,2,3,4])` is `3`, not `2.5`. -/
theorem C2_median_1234_is_3 : median ([1, 2, 3, 4] : List ℚ) = .ok 3 := by
  obtain ⟨h, hm⟩ := C2_median_even_length_returns_upper_middle ([1, 2, 3, 4] : List ℚ)
    (by decide) (by decide)
  rw [hm]
  congr 1

/-- C3 (the code departs from the claim). For every single-element vector `[v]`,
`median` computes `id1 = floor(0.5) = 0` and `id2 = ceil(0.5) = 1`, and the read
`values[id2]` is outside the vector: the call faults instead of returning `v`. -/
theorem C3_median_single_element_reads_out_of_bounds (v : K) :
    median [v] = .error .outOfBounds :=
  median_singleton v

/-- C4 (the code departs from the claim). When no angular sample has both of its
positions valid, the vector `diffs` of `med_diff` is still its initial `[0]`, and
`median` on this one-element vector reads `values[1]`: `med_diff` faults instead of
returning `0`. -/
theorem C4_med_diff_without_valid_sample_faults (E : Ext K) (m : Mat) (ring_center : K × K)
    (rid1 rid2 : Int) (dradius : K)
    (hnone : ∀ i, i < (med_diff_circumference E rid1 rid2 dradius).toNat →
      med_diff_valid E m ring_center rid1 rid2 dradius i = false) :
    med_diff_samples E m ring_center rid1 rid2 dradius = [0] ∧
      med_diff E m ring_center rid1 rid2 dradius = .error .outOfBounds := by
  have hs : med_diff_samples E m ring_center rid1 rid2 dradius = [0] := by
    unfold med_diff_samples
    apply foldl_keep
    intro i hi
    exact hnone i (List.mem_range.mp hi)
  refine ⟨hs, ?_⟩
  unfold med_diff
  rw [hs]
  exact median_singleton 0

/-- C4, at a concrete input: a `1 x 1` image, rings 5 and 6 of thickness 1 around
`(0, 0)`; every sample lies outside the image and the call faults. -/
theorem C4_med_diff_outside_image_faults :
    med_diff testExt (constMat 1 1 7) (0, 0) 5 6 1 = .error .outOfBounds :=
  (C4_med_diff_without_valid_sample_faults testExt (constMat 1 1 7) (0, 0) 5 6 1
    (by
      intro i _
      simp [med_diff_valid, med_diff_positions, testExt, constMat])).2

end ClaimsA

section ClaimsB

variable {K : Type} [LinearOrderedField K]

/-- C7. For every centre `(cx, cy)` and image size `(sx, sy)`, `max_ring_radius`
returns a non-negative value whose square is the maximum of the four squared
distances from the centre to the corners `(0,0)`, `(sx,sy)`, `(0,sy)`, `(sx,0)`; for
the centre `(0,0)` and the size `(10,10)` the result is `sqrt(200)`.  (`sqrt` is a
non-negative square root on the non-negative values.) -/
theorem C7_max_ring_radius_farthest_corner (sqrt : K → K)
    (hsqrt : ∀ v, 0 ≤ v → 0 ≤ sqrt v ∧ sqrt v * sqrt v = v) (center im_size : K × K) :
    0 ≤ max_ring_radius sqrt center im_size ∧
    max_ring_radius sqrt center im_size * max_ring_radius sqrt center im_size =
      max
        (max ((0 - center.1) ^ 2 + (0 - center.2) ^ 2)
          ((im_size.1 - center.1) ^ 2 + (im_size.2 - center.2) ^ 2))
        (max ((0 - center.1) ^ 2 + (im_size.2 - center.2) ^ 2)
          ((im_size.1 - center.1) ^ 2 + (0 - center.2) ^ 2)) ∧
    max_ring_radius sqrt (0, 0) (10, 10) = sqrt 200 := by
  have hsq : max_radius_squre center im_size =
      max
        (max ((0 - center.1) ^ 2 + (0 - center.2) ^ 2)
          ((im_size.1 - center.1) ^ 2 + (im_size.2 - center.2) ^ 2))
        (max ((0 - center.1) ^ 2 + (im_size.2 - center.2) ^ 2)
          ((im_size.1 - center.1) ^ 2 + (0 - center.2) ^ 2)) := by
    simp only [max_radius_squre, corner, List.foldl]
    have h0 : (0 : K) ≤ (0 - center.1) * (0 - center.1) + (0 - center.2) * (0 - center.2) :=
      add_nonneg (mul_self_nonneg _) (mul_self_nonneg _)
    rw [max_eq_right h0, max_assoc]
    simp only [pow_two]
  have hnn : 0 ≤ max_radius_squre center im_size := by
    rw [hsq]
    exact le_max_of_le_left (le_max_of_le_left (by positivity))
  refine ⟨?_, ?_, ?_⟩
  · exact (hsqrt _ hnn).1
  · unfold max_ring_radius
    rw [(hsqrt _ hnn).2, hsq]
  · unfold max_ring_radius
    congr 1
    simp only [max_radius_squre, corner, List.foldl]
    norm_num

/-- C7, over the reals with the real square root: the centre `(0,0)` and the size
`(10,10)` give the radius `sqrt(200)`, whose square is `200`. -/
theorem C7_max_ring_radius_10x10 :
    0 ≤ max_ring_radius Real.sqrt ((0 : ℝ), (0 : ℝ)) (10, 10) ∧
    max_ring_radius Real.sqrt ((0 : ℝ), (0 : ℝ)) (10, 10) *
      max_ring_radius Real.sqrt ((0 : ℝ), (0 : ℝ)) (10, 10) = 200 ∧
    max_ring_radius Real.sqrt ((0 : ℝ), (0 : ℝ)) (10, 10) = Real.sqrt 200 := by
  have h := C7_max_ring_radius_farthest_corner Real.sqrt
    (fun v hv => ⟨Real.sqrt_nonneg v, Real.mul_self_sqrt hv⟩) ((0 : ℝ), (0 : ℝ)) (10, 10)
  refine ⟨h.1, ?_, h.2.2⟩
  rw [h.2.1]
  norm_num

/-- C8 (the code departs from the claim). For every volume with `SZ >= 2` slices the
ring centre of the 3D `MMDPolarRD` is `last_slice_centre` at the first slice
(`z = 0`) and `first_slice_centre` at the last slice (`z = SZ-1`): the two weights
`z` and `SZ-z-1` are exchanged. -/
theorem C8_slice_centre_is_reversed (first_slice_centre last_slice_centre : K × K)
    (SZ : Nat) (hSZ : 2 ≤ SZ) :
    slice_centre first_slice_centre last_slice_centre SZ 0 = last_slice_centre ∧
    slice_centre first_slice_centre last_slice_centre SZ (SZ - 1) = first_slice_centre := by
  have hd : ((((SZ : Int) - 1 : Int)) : K) ≠ 0 := by
    have : ((SZ : Int) - 1) ≠ 0 := by omega
    exact_mod_cast this
  constructor
  · unfold slice_centre
    simp only [Nat.cast_zero, Int.cast_zero, zero_mul, zero_add, sub_zero]
    rw [mul_div_cancel_left₀ _ hd, mul_div_cancel_left₀ _ hd]
  · unfold slice_centre
    have h2 : (((SZ - 1 : Nat) : Int)) = (SZ : Int) - 1 := by omega
    have h3 : ((SZ : Int) - ((SZ : Int) - 1) - 1) = 0 := by omega
    simp only [h2, h3, Int.cast_zero, zero_mul, add_zero]
    rw [mul_div_cancel_left₀ _ hd, mul_div_cancel_left₀ _ hd]

/-- C8, at a concrete input: two slices, `first_slice_centre = (0, 0)` and
`last_slice_centre = (10, 10)`; slice `0` is corrected around `(10, 10)` and slice `1`
around `(0, 0)`. -/
theorem C8_slice_centre_two_slices :
    slice_centre ((0 : ℚ), (0 : ℚ)) (10, 10) 2 0 = (10, 10) ∧
    slice_centre ((0 : ℚ), (0 : ℚ)) (10, 10) 2 1 = (0, 0) :=
  C8_slice_centre_is_reversed ((0 : ℚ), (0 : ℚ)) (10, 10) 2 (by norm_num)

end ClaimsB
section ClaimsC

variable {K : Type} [LinearOrderedField K] [FloorRing K]

end ClaimsC

theorem bind_pure_length (l : List Nat) :
    (do let a ← l; pure (a : ℚ) : List ℚ).length = l.length := by
  induction l with
  | nil => rfl
  | cons a l ih =>
    show ([(a : ℚ)] ++ (do let a ← l; pure (a : ℚ) : List ℚ)).length = _
    rw [List.length_append, ih]
    simp
    omega

theorem foldl_count_sum {β : Type} (p : β → Bool) (f : β → ℚ) (v : ℚ) (l : List β)
    (hp : ∀ i ∈ l, p i = true) (hf : ∀ i ∈ l, f i = v) (acc : Int × ℚ) :
    l.foldl (fun (acc : Int × ℚ) i => if p i then (acc.1 + 1, acc.2 + f i) else acc) acc =
      (acc.1 + l.length, acc.2 + l.length * v) := by
  induction l generalizing acc with
  | nil => simp
  | cons a l ih =>
    have ha : p a = true := hp a (List.mem_cons_self a l)
    have hfa : f a = v := hf a (List.mem_cons_self a l)
    simp only [List.foldl_cons, ha, if_true, hfa]
    rw [ih (fun i hi => hp i (List.mem_cons_of_mem a hi))
      (fun i hi => hf i (List.mem_cons_of_mem a hi))]
    simp only [List.length_cons, Nat.cast_add, Nat.cast_one]
    refine Prod.ext ?_ ?_
    · simp only; ring
    · simp only; ring

theorem avg_on_ring_testExt (m : Mat) (c : ℚ × ℚ) (rid : Int) (dr sub : ℚ)
    (hvalid : testExt.isvalid m ((rid : ℚ) * dr + c.1) c.2 = true) :
    avg_on_ring testExt m c rid dr sub =
      (m.px (toInt c.2).toNat (toInt ((rid : ℚ) * dr + c.1)).toNat : ℚ) := by
  unfold avg_on_ring
  dsimp only
  have hx : ∀ t : ℚ, (rid : ℚ) * dr * testExt.cos t + c.1 = (rid : ℚ) * dr + c.1 := by
    intro t; simp [testExt]
  have hy : ∀ t : ℚ, (rid : ℚ) * dr * testExt.sin t + c.2 = c.2 := by
    intro t; simp [testExt]
  simp only [hx, hy]
  generalize hcirc : max 8 (toInt (2 * testExt.pi * ((rid : ℚ) * dr) / sub)) = circ
  have hc8 : (8 : Int) ≤ circ := by rw [← hcirc]; exact le_max_left _ _
  have hlen : (do let a ← List.range circ.toNat; pure (a : ℚ) : List ℚ).length = circ.toNat := by
    rw [bind_pure_length, List.length_range]
  rw [foldl_count_sum (fun _ : ℚ => testExt.isvalid m ((rid : ℚ) * dr + c.1) c.2)
    (fun _ : ℚ => testExt.Get m ((rid : ℚ) * dr + c.1, c.2) c
      (2 * testExt.pi / (circ : ℚ) / 2) (dr / 2))
    (m.px (toInt c.2).toNat (toInt ((rid : ℚ) * dr + c.1)).toNat : ℚ)
    _ (fun _ _ => hvalid) (fun _ _ => rfl)]
  rw [hlen]
  simp only [zero_add]
  have hpos : (0 : Int) < ((circ.toNat : ℕ) : Int) := by omega
  rw [if_pos hpos]
  have hne : (((circ.toNat : ℕ) : Int) : ℚ) ≠ 0 := by
    have : (0 : ℚ) < (((circ.toNat : ℕ) : Int) : ℚ) := by exact_mod_cast hpos
    exact this.ne'
  push_cast at hne ⊢
  field_simp

theorem polarRD_num_of_rings_rampVol_400x200 :
    polarRD_num_of_rings testExt (rampVol 400 200 1) (0, 0) 50 = 8 := by
  unfold polarRD_num_of_rings max_ring_radius
  simp only [testExt, rampVol, Nat.cast_ofNat]
  rw [max_radius_squre_400x200, sqrtQ_200000]
  exact toInt_447_div_50

theorem avg_diff_v2_rampVol_0_2 :
    avg_diff_v2 testExt ((rampVol 400 200 1).getMat ((rampVol 400 200 1).SZ / 2)) (0, 0)
      ((0 : ℕ) : Int) 2 50 1 = -100 := by
  unfold avg_diff_v2
  dsimp only
  rw [avg_on_ring_testExt _ _ _ _ _ (by simp [testExt, rampVol, Data3D.getMat]),
    avg_on_ring_testExt _ _ _ _ _ (by simp [testExt, rampVol, Data3D.getMat]; norm_num)]
  simp only [rampVol, Data3D.getMat]
  have e1 : (((0 : ℕ) : Int) : ℚ) * 50 + (0 : ℚ) = ((0 : ℕ) : ℚ) := by norm_num
  have e2 : ((2 : Int) : ℚ) * 50 + (0 : ℚ) = ((100 : ℕ) : ℚ) := by norm_num
  rw [e1, e2, toInt_natCast _ (by norm_num), toInt_natCast _ (by norm_num)]
  norm_num

section ClaimsC2

variable {K : Type} [LinearOrderedField K] [FloorRing K]

theorem polarRD_ok (E : Ext K) (hsqrt : ∀ v, 0 ≤ E.sqrt v) (st : Nat → Data3D) (src dst : Nat)
    (hne : src ≠ dst) (o : PolarRDOption) (f : Mat → K × K → Int → Int → K → K → K)
    (hf : diff_func E o = some f) (dr : K) (hd : 0 < dr) (approx_centre : K × K)
    (subpixel_on_ring : K) (n : Nat) (hn1 : 1 ≤ n)
    (hn : polarRD_num_of_rings E (st src) approx_centre dr = (n : Int)) :
    ∃ st1 corr, polarRD E st src dst o dr approx_centre subpixel_on_ring = .ok (st1, corr) ∧
      corr.length = n ∧
      ∀ i, i < n → corr[i]? = some (if i + 1 < n then
        f ((st src).getMat ((st src).SZ / 2)) approx_centre i (toInt (100 / dr)) dr
          subpixel_on_ring
        else 0) := by
  obtain ⟨corr, hc, hl, hv⟩ := polarRD_correction_spec E (st src) o f hf dr approx_centre
    subpixel_on_ring n hn
  have hok : ∀ x y : Nat, ∃ c,
      interp_correction corr dr (pixel_radius E approx_centre x y) = .ok c := by
    intro x y
    obtain ⟨i1, i2, h1, h2, _, _, hc⟩ := interp_correction_ok corr dr
      (pixel_radius E approx_centre x y) (by omega) hd (by unfold pixel_radius; exact hsqrt _)
    exact ⟨_, hc⟩
  obtain ⟨d, hd1, _, _⟩ := correct_image3D_spec E (st src) (st dst) corr ((st src).SZ / 2)
    approx_centre dr (fun x y => (hok x y).choose) (fun x _ y _ => (hok x y).choose_spec)
  refine ⟨Function.update st dst d, corr, ?_, hl, hv⟩
  unfold polarRD
  rw [if_neg hne]
  dsimp only
  rw [hc, bind_ok, hd1, bind_ok]
  rfl

/-- C10 (as amended). For every volume, centre, `dr > 0` with `100/dr < 2^31` (the
conversion `int(100/dr)` is then defined), subpixel step and option in
`{AVG_DIFF, MED_DIFF}`, and with `dst` another object than `src`: the selected
`diff_func` gives `0` on equal ring indices, and whenever
`const_ri = int(100/dr) < num_of_rings`, `polarRD` returns and the correction vector
it computed (and copies to `*pCorrection`) has `num_of_rings` entries, the entries
`ri < num_of_rings-1` being `diff_func(m, c, ri, const_ri, dr, subpixel_on_ring)`, with
`correction[const_ri] = 0`.  (`sqrt` is taken non-negative.) -/
theorem C10_polarRD_reference_entry_zero (E : Ext K) (hsqrt : ∀ v, 0 ≤ E.sqrt v)
    (st : Nat → Data3D) (src dst : Nat) (hne : src ≠ dst) (o : PolarRDOption)
    (ho : o = .AVG_DIFF ∨ o = .MED_DIFF) (dr : K) (hd : 0 < dr) (hr : 100 / dr < 2 ^ 31)
    (approx_centre : K × K) (subpixel_on_ring : K)
    (hk : toInt (100 / dr) < polarRD_num_of_rings E (st src) approx_centre dr) :
    ∃ f, diff_func E o = some f ∧
      (∀ (m : Mat) (c : K × K) (ri : Int), f m c ri ri dr subpixel_on_ring = 0) ∧
      ∃ st1 corr, polarRD E st src dst o dr approx_centre subpixel_on_ring = .ok (st1, corr) ∧
        (corr.length : Int) = polarRD_num_of_rings E (st src) approx_centre dr ∧
        (∀ ri : Nat, (ri : Int) + 1 < polarRD_num_of_rings E (st src) approx_centre dr →
          corr[ri]? = some (f ((st src).getMat ((st src).SZ / 2)) approx_centre ri
            (toInt (100 / dr)) dr subpixel_on_ring)) ∧
        vecAt corr (toInt (100 / dr)) = .ok 0 := by
  have hf : ∃ f, diff_func E o = some f ∧
      ∀ (m : Mat) (c : K × K) (ri : Int), f m c ri ri dr subpixel_on_ring = 0 := by
    rcases ho with rfl | rfl
    · exact ⟨avg_diff_v2 E, rfl, fun m c ri => by simp [avg_diff_v2]⟩
    · exact ⟨med_diff_v2 E, rfl, fun m c ri => by simp [med_diff_v2]⟩
  obtain ⟨f, hfo, hzero⟩ := hf
  refine ⟨f, hfo, hzero, ?_⟩
  have hk0 : 0 ≤ toInt (100 / dr) := toInt_nonneg _ (by positivity) hr
  obtain ⟨n, hn⟩ : ∃ n : Nat, polarRD_num_of_rings E (st src) approx_centre dr = (n : Int) :=
    ⟨(polarRD_num_of_rings E (st src) approx_centre dr).toNat, by omega⟩
  obtain ⟨k, hkeq⟩ : ∃ k : Nat, toInt (100 / dr) = (k : Int) :=
    ⟨(toInt (100 / dr)).toNat, by omega⟩
  have hkn : k < n := by omega
  obtain ⟨st1, corr, hp, hl, hv⟩ := polarRD_ok E hsqrt st src dst hne o f hfo dr hd
    approx_centre subpixel_on_ring n (by omega) hn
  refine ⟨st1, corr, hp, by rw [hn, hl], ?_, ?_⟩
  · intro ri hri
    rw [hn] at hri
    have h1 : ri + 1 < n := by omega
    rw [hv ri (by omega), if_pos h1]
  · rw [hkeq]
    apply vecAt_of_getElem?
    rw [hv k hkn, ← hkeq]
    simp only [hzero, ite_self]

end ClaimsC2

/-- C10, the amended claim at a concrete input: a `400 x 200 x 1` volume whose
intensity is the `x` coordinate, ring centre `(0, 0)`, `dr = 50`, subpixel step `1`
and the option `AVG_DIFF`, for which `num_of_rings = 8` and `const_ri = 2`: the entry
`0` of the correction vector is `0 - 100` and the entry `2` is `0`. -/
theorem C10_polarRD_reference_entry_zero_ramp :
    ∃ st1 corr, polarRD testExt (fun _ => rampVol 400 200 1) 0 1 .AVG_DIFF 50 (0, 0) 1
        = .ok (st1, corr) ∧
      corr.length = 8 ∧ corr[0]? = some (-100 : ℚ) ∧ vecAt corr 2 = .ok 0 := by
  obtain ⟨f, hf, _, st1, corr, h, hl, hent, hz⟩ :=
    C10_polarRD_reference_entry_zero testExt sqrtQ_nonneg
      (fun _ => rampVol 400 200 1) 0 1 (by decide) .AVG_DIFF (Or.inl rfl) 50 (by norm_num)
      (by norm_num) (0, 0) 1
      (by rw [polarRD_num_of_rings_rampVol_400x200, toInt_100_div_50]; norm_num)
  rw [toInt_100_div_50] at hz hent
  rw [polarRD_num_of_rings_rampVol_400x200] at hl hent
  have hf2 : f = avg_diff_v2 testExt := by
    have : some (avg_diff_v2 testExt) = some f := hf
    exact (Option.some.inj this).symm
  refine ⟨st1, corr, h, by exact_mod_cast hl, ?_, hz⟩
  have h0 := hent 0 (by norm_num)
  rw [h0, hf2, avg_diff_v2_rampVol_0_2]

theorem toInt_two_pow_31 : toInt (100 / (100 / 2 ^ 31) : ℚ) = -(2 ^ 31) :=
  toInt_of_overflow _ (by norm_num)

theorem polarRD_num_of_rings_3x4_small_dr :
    polarRD_num_of_rings testExt (constVol 3 4 1 7) (0, 0) (100 / 2 ^ 31) =
      ((107374182 : ℕ) : Int) := by
  unfold polarRD_num_of_rings max_ring_radius
  simp only [testExt, constVol, Nat.cast_ofNat]
  rw [max_radius_squre_3x4, sqrtQ_25]
  rw [toInt_eq_floor _ (by norm_num) (by norm_num), Int.floor_eq_iff]
  norm_num

/-- C10, counterexample to the claim as stated: a `3 x 4 x 1` volume, ring centre
`(0, 0)` and `dr = 100/2^31 > 0`.  Here `100/dr = 2^31` is outside the range of
`int`: `const_ri` is `-2^31`, which is smaller than `num_of_rings = 107374182`, and
`polarRD` returns, but `const_ri` is no index of the correction vector. -/
theorem C10_reference_index_overflows :
    (0 : ℚ) < 100 / 2 ^ 31 ∧
    toInt (100 / (100 / 2 ^ 31) : ℚ) <
      polarRD_num_of_rings testExt (constVol 3 4 1 7) (0, 0) (100 / 2 ^ 31) ∧
    ∃ st1 corr, polarRD testExt (fun _ => constVol 3 4 1 7) 0 1 .AVG_DIFF (100 / 2 ^ 31)
        (0, 0) 1 = .ok (st1, corr) ∧
      vecAt corr (toInt (100 / (100 / 2 ^ 31) : ℚ)) = .error .outOfBounds := by
  refine ⟨by positivity, ?_, ?_⟩
  · rw [toInt_two_pow_31, polarRD_num_of_rings_3x4_small_dr]
    norm_num
  · obtain ⟨st1, corr, hp, _, _⟩ := polarRD_ok testExt sqrtQ_nonneg
      (fun _ => constVol 3 4 1 7) 0 1 (by decide) .AVG_DIFF (avg_diff_v2 testExt) rfl
      (100 / 2 ^ 31) (by positivity) (0, 0) 1 107374182 (by norm_num)
      polarRD_num_of_rings_3x4_small_dr
    refine ⟨st1, corr, hp, ?_⟩
    rw [toInt_two_pow_31]
    exact vecAt_error_of_neg corr _ (by norm_num)


section ClaimsD

variable {K : Type} [LinearOrderedField K] [FloorRing K]

theorem avg_diff_acc_sum_zero (E : Ext K) (m : Mat) (ring_center : K × K) (rid1 rid2 : Int)
    (dradius : K)
    (hval : ∀ i, avg_diff_valid E m ring_center rid1 rid2 dradius i = true →
      med_diff_value E m ring_center rid1 rid2 dradius i = 0) :
    (avg_diff_acc E m ring_center rid1 rid2 dradius).1 = 0 := by
  unfold avg_diff_acc
  generalize List.range (med_diff_circumference E rid1 rid2 dradius).toNat = l
  have key : ∀ (l : List Nat) (acc : K × Int), acc.1 = 0 →
      (l.foldl (fun (acc : K × Int) i =>
        if avg_diff_valid E m ring_center rid1 rid2 dradius i then
          (acc.1 + med_diff_value E m ring_center rid1 rid2 dradius i, acc.2 + 1)
        else acc) acc).1 = 0 := by
    intro l
    induction l with
    | nil => intro acc h; exact h
    | cons a l ih =>
      intro acc h
      simp only [List.foldl_cons]
      apply ih
      by_cases hv : avg_diff_valid E m ring_center rid1 rid2 dradius a = true
      · rw [if_pos hv]
        simp [h, hval a hv]
      · rw [if_neg hv]
        exact h
  exact key l (0, 0) rfl

/-- C11. For every image on which the interpolation returns the same intensity `k`
at every valid position (an image of constant intensity), every ring centre, every
pair of ring indices `rid1`, `rid2` and every `dradius`, `avg_diff` returns `0`;
this includes the case in which no sample is valid. -/
theorem C11_avg_diff_constant_image (E : Ext K) (m : Mat) (k : K)
    (hconst : ∀ (p c : K × K) (a b : K), E.isvalid m p.1 p.2 = true → E.Get m p c a b = k)
    (ring_center : K × K) (rid1 rid2 : Int) (dradius : K) :
    avg_diff E m ring_center rid1 rid2 dradius = 0 := by
  have hsum := avg_diff_acc_sum_zero E m ring_center rid1 rid2 dradius
    (by
      intro i hv
      unfold avg_diff_valid at hv
      simp only [Bool.and_eq_true] at hv
      unfold med_diff_value
      dsimp only
      rw [hconst _ _ _ _ hv.1, hconst _ _ _ _ hv.2, sub_self])
  unfold avg_diff
  dsimp only
  rw [hsum]
  split <;> simp

/-- C11, at a concrete input: a `5 x 5` image of constant intensity `7`, ring centre
`(2, 2)`, the rings `1` and `2` of thickness `1`. -/
theorem C11_avg_diff_constant_5x5 :
    avg_diff testExt (constMat 5 5 7) (2, 2) 1 2 1 = 0 :=
  C11_avg_diff_constant_image testExt (constMat 5 5 7) 7
    (by intro p c a b _; simp [testExt, constMat]) (2, 2) 1 2 1


theorem MMDPolarRD_correction_eq (E : Ext K) (src : Mat) (ring_center : K × K) (dradius : K) :
    MMDPolarRD_correction E src ring_center dradius =
      MMD_correction E src ring_center dradius
        (MMDPolarRD_num_of_rings E src ring_center dradius) := rfl

theorem MMDPolarRD3D_correction_eq (E : Ext K) (src : Data3D) (c1 c2 : K × K) (dradius : K)
    (z : Nat) :
    MMDPolarRD3D_correction E src c1 c2 dradius z =
      MMD_correction E (src.getMat z) (slice_centre c1 c2 src.SZ z) dradius
        (MMDPolarRD3D_num_of_rings E src c1 c2 dradius) := rfl

theorem MMD_correction_drift_fault (E : Ext K) (m : Mat) (ring_center : K × K)
    (dradius : K) (n : Nat) (hn1 : 1 ≤ n) (hn : n < 2 ^ 32)
    (hdiff : ∀ ri, ri + 1 < n → ∃ d, adjacent_diff E m ring_center dradius ri = .ok d)
    (hk : toInt (100 / dradius) < 0 ∨ (n : Int) ≤ toInt (100 / dradius)) :
    MMD_correction E m ring_center dradius n = .error .outOfBounds := by
  obtain ⟨c1, hc1, hl1⟩ := MMD_differences_ok E m ring_center dradius n hn hn1
    (List.replicate n 0) (by simp) hdiff
  obtain ⟨c2, hc2, hl2⟩ := MMD_accumulate_ok n hn c1 hl1
  unfold MMD_correction
  dsimp only
  rw [hc1, bind_ok, hc2, bind_ok]
  unfold MMD_remove_drift
  rcases hk with hk | hk
  · rw [vecAt_error_of_neg c2 _ hk, bind_error]
  · rw [vecAt_error_of_length_le c2 _ (by omega), bind_error]

theorem adjacent_diff_eq_med_diff (E : Ext K) (m : Mat) (ring_center : K × K) (dradius : K)
    (i : Nat) (hi : i + 1 < 2 ^ 31) :
    adjacent_diff E m ring_center dradius i =
      med_diff E m ring_center (i : Int) ((i : Int) + 1) dradius := by
  unfold adjacent_diff
  have h1 : (i + 1) % 2 ^ 32 = i + 1 := Nat.mod_eq_of_lt (by omega)
  rw [h1, unsignedToInt_of_lt i (by omega), unsignedToInt_of_lt (i + 1) hi]
  push_cast
  rfl

/-- C13 (as amended). In `MMDPolarRD` (the correction vector of both overloads is
`MMD_correction` at their image, centre and `num_of_rings`), with
`1 <= n = num_of_rings <= 2^31` and `k = int(100/dradius)` an index `0 <= k < n` (the
conversion gives a negative value when `100/dradius >= 2^31`), let
`d[i] = med_diff(src, centre, i, i+1, dradius)` for `i < n-1` and `d[n-1] = 0`.  After
the backward accumulation `correction[i]` is the suffix sum `d[i] + ... + d[n-1]` (so
the outermost bin is `0`), and after the drift removal `correction[i]` is that sum
minus the suffix sum at `k`: `d[i] + ... + d[k-1]` for `i < k`, `0` for `i = k` and
`-(d[k] + ... + d[i-1])` for `i > k`. -/
theorem C13_correction_is_suffix_sum_difference (E : Ext K) (m : Mat) (ring_center : K × K)
    (dradius : K) (n k : Nat) (d : Nat → K) (hn1 : 1 ≤ n) (hn : n ≤ 2 ^ 31)
    (hk : toInt (100 / dradius) = (k : Int)) (hkn : k < n)
    (hdiff : ∀ i : Nat, i + 1 < n →
      med_diff E m ring_center (i : Int) ((i : Int) + 1) dradius = .ok (d i))
    (hlast : d (n - 1) = 0) :
    ∃ c1 c2 corr,
      MMD_differences E m ring_center dradius n (List.replicate n 0) = .ok c1 ∧
      MMD_accumulate n c1 = .ok c2 ∧
      MMD_correction E m ring_center dradius n = .ok corr ∧
      (∀ i, i < n → c1[i]? = some (d i)) ∧
      (∀ i, i < n → c2[i]? = some (∑ j in Finset.Ico i n, d j)) ∧
      c2[n - 1]? = some 0 ∧
      (∀ i, i < n →
        corr[i]? = some ((∑ j in Finset.Ico i n, d j) - ∑ j in Finset.Ico k n, d j)) ∧
      (∀ i, i < k → corr[i]? = some (∑ j in Finset.Ico i k, d j)) ∧
      corr[k]? = some 0 ∧
      (∀ i, k < i → i < n → corr[i]? = some (-(∑ j in Finset.Ico k i, d j))) := by
  have hn32 : n < 2 ^ 32 := by omega
  have hadj : ∀ i, i + 1 < n → adjacent_diff E m ring_center dradius i = .ok (d i) := by
    intro i hi
    rw [adjacent_diff_eq_med_diff E m ring_center dradius i (by omega)]
    exact hdiff i hi
  obtain ⟨c1, hc1, hl1, hv1⟩ := ring_differences_spec
    (adjacent_diff E m ring_center dradius) d n hn1 hn32 (List.replicate n 0) (by simp) hadj
  have hv1d : ∀ i, i < n → c1[i]? = some (d i) := by
    intro i hi
    rw [hv1 i hi]
    by_cases h : i + 1 < n
    · rw [if_pos h]
    · have hi1 : i = n - 1 := by omega
      have h0 : 0 < n := by omega
      rw [if_neg h, hi1, hlast]
      have h1 : n - 1 < n := by omega
      simp [List.getD, List.getElem?_replicate, h1]
  obtain ⟨c2, hc2, hl2, hv2⟩ := MMD_accumulate_spec d n hn1 (by omega) c1 hl1 hv1d
  obtain ⟨c3, hc3, hl3, hv3⟩ := MMD_remove_drift_spec dradius n c2 hl2 k hk hkn
  have hget : ∀ i, i < n → c2.getD i 0 = ∑ j in Finset.Ico i n, d j := by
    intro i hi
    simp [List.getD, hv2 i hi]
  have hcorr : ∀ i, i < n →
      c3[i]? = some ((∑ j in Finset.Ico i n, d j) - ∑ j in Finset.Ico k n, d j) := by
    intro i hi
    rw [hv3 i hi, hget i hi, hget k hkn]
  refine ⟨c1, c2, c3, hc1, hc2, ?_, hv1d, hv2, ?_, hcorr, ?_, ?_, ?_⟩
  · unfold MMD_correction
    dsimp only
    have hc1' : MMD_differences E m ring_center dradius n (List.replicate n 0) = .ok c1 := hc1
    rw [hc1', bind_ok, hc2, bind_ok]
    exact hc3
  · rw [hv2 (n - 1) (by omega)]
    have hIco : Finset.Ico (n - 1) n = {n - 1} := by
      ext x; simp only [Finset.mem_Ico, Finset.mem_singleton]; omega
    rw [hIco, Finset.sum_singleton, hlast]
  · intro i hi
    rw [hcorr i (by omega), sum_Ico_split d i k n (by omega) (by omega)]
  · rw [hcorr k hkn, sub_self]
  · intro i hki hi
    have hs := sum_Ico_split d k i n (by omega) (by omega)
    have e : (∑ j in Finset.Ico i n, d j) - ∑ j in Finset.Ico k n, d j =
        -(∑ j in Finset.Ico k i, d j) := by linarith
    rw [hcorr i hi, e]

end ClaimsD

theorem med_diff_ramp_200x400 (i : Nat) (hi : i + 1 < 8) :
    med_diff testExt (rampMat 200 400) (0, 0) (i : Int) ((i : Int) + 1) 50 = .ok (-50) := by
  rw [← adjacent_diff_eq_med_diff testExt (rampMat 200 400) (0, 0) 50 i (by omega)]
  exact adjacent_diff_ramp_200x400 i hi

/-- C13, the amended claim at a concrete input: a `200 x 400` image whose intensity is
the column index, ring centre `(0, 0)` and `dradius = 50`, for which `n = 8`, `k = 2`
and the differences are `d = [-50, -50, -50, -50, -50, -50, -50, 0]`: the accumulated
vector is `[-350, -300, -250, ..., -50, 0]` and the final correction vector is
`[-100, -50, 0, 50, 100, 150, 200, 250]`. -/
theorem C13_correction_ramp_200x400 :
    ∃ c1 c2 corr,
      MMD_differences testExt (rampMat 200 400) (0, 0) 50 8 (List.replicate 8 0) = .ok c1 ∧
      c1[0]? = some (-50 : ℚ) ∧ c1[6]? = some (-50 : ℚ) ∧ c1[7]? = some (0 : ℚ) ∧
      MMD_accumulate 8 c1 = .ok c2 ∧
      c2[0]? = some (-350 : ℚ) ∧ c2[1]? = some (-300 : ℚ) ∧ c2[2]? = some (-250 : ℚ) ∧
      c2[7]? = some (0 : ℚ) ∧
      MMDPolarRD_correction testExt (rampMat 200 400) (0, 0) 50 = .ok corr ∧
      corr[0]? = some (-100 : ℚ) ∧ corr[1]? = some (-50 : ℚ) ∧ corr[2]? = some (0 : ℚ) ∧
      corr[3]? = some (50 : ℚ) ∧ corr[7]? = some (250 : ℚ) := by
  obtain ⟨c1, c2, corr, hc1, hc2, hcorr, hd1, hacc, hlast, _, hlow, hk, hhigh⟩ :=
    C13_correction_is_suffix_sum_difference testExt (rampMat 200 400) (0, 0) (50 : ℚ) 8 2
      (fun i => if i + 1 < 8 then -50 else 0) (by norm_num) (by norm_num) toInt_100_div_50
      (by norm_num)
      (fun i hi => by rw [med_diff_ramp_200x400 i hi]; simp [hi]) rfl
  have hsum : ∀ a b : Nat, a ≤ b → b ≤ 7 →
      (∑ j in Finset.Ico a b, (fun i => if i + 1 < 8 then (-50 : ℚ) else 0) j) =
        -50 * ((b - a : ℕ) : ℚ) := by
    intro a b hab hb
    rw [Finset.sum_congr rfl (g := fun _ => (-50 : ℚ))
      (fun j hj => by
        have := (Finset.mem_Ico.mp hj).2
        simp only
        rw [if_pos (by omega)])]
    rw [Finset.sum_const, Nat.card_Ico]
    simp
    ring
  have hsum8 : ∀ a : Nat, a ≤ 7 →
      (∑ j in Finset.Ico a 8, (fun i => if i + 1 < 8 then (-50 : ℚ) else 0) j) =
        -50 * ((7 - a : ℕ) : ℚ) := by
    intro a ha
    rw [Finset.sum_Ico_succ_top (by omega : a ≤ 7), hsum a 7 ha (le_refl _)]
    simp
  refine ⟨c1, c2, corr, hc1, ?_, ?_, ?_, hc2, ?_, ?_, ?_, ?_, ?_, ?_, ?_, ?_, ?_, ?_⟩
  · rw [hd1 0 (by norm_num)]; rfl
  · rw [hd1 6 (by norm_num)]; rfl
  · rw [hd1 7 (by norm_num)]; rfl
  · rw [hacc 0 (by norm_num), hsum8 0 (by norm_num)]; norm_num
  · rw [hacc 1 (by norm_num), hsum8 1 (by norm_num)]; norm_num
  · rw [hacc 2 (by norm_num), hsum8 2 (by norm_num)]; norm_num
  · rw [hacc 7 (by norm_num), hsum8 7 (by norm_num)]; norm_num
  · rw [MMDPolarRD_correction_eq, num_of_rings_ramp_200x400]; exact hcorr
  · rw [hlow 0 (by norm_num), hsum 0 2 (by norm_num) (by norm_num)]; norm_num
  · rw [hlow 1 (by norm_num), hsum 1 2 (by norm_num) (by norm_num)]; norm_num
  · exact hk
  · rw [hhigh 3 (by norm_num) (by norm_num), hsum 2 3 (by norm_num) (by norm_num)]; norm_num
  · rw [hhigh 7 (by norm_num) (by norm_num), hsum 2 7 (by norm_num) (by norm_num)]; norm_num

theorem max_radius_squre_3x6 :
    max_radius_squre ((0 : ℚ), (2 : ℚ)) (3, 6) = 25 := by
  simp only [max_radius_squre, corner, List.foldl]
  norm_num

theorem toUnsigned_5_div_small : toUnsigned (5 / (100 / 2 ^ 31) : ℚ) = 107374182 := by
  unfold toUnsigned
  have h : truncate (5 / (100 / 2 ^ 31) : ℚ) = 107374182 := by
    rw [truncate_of_nonneg _ (by positivity), Int.floor_eq_iff]
    norm_num
  rw [h, Int.emod_eq_of_lt (by norm_num) (by norm_num)]
  rfl

theorem num_of_rings_ramp_3x6 :
    MMDPolarRD_num_of_rings testExt (rampMat 3 6) (0, 2) (100 / 2 ^ 31) = 107374182 := by
  unfold MMDPolarRD_num_of_rings max_ring_radius
  simp only [testExt, rampMat, Nat.cast_ofNat]
  rw [max_radius_squre_3x6, sqrtQ_25]
  exact toUnsigned_5_div_small

theorem med_diff_valid_ramp_3x6 (i : Nat) (hi : i + 1 < 107374182) :
    med_diff_valid testExt (rampMat 3 6) (0, 2) (i : Int) ((i : Int) + 1) (100 / 2 ^ 31) 0
      = true := by
  have h0 : (0 : ℚ) ≤ (i : ℚ) := Nat.cast_nonneg i
  have h1 : (i : ℚ) + 1 ≤ 107374182 := by exact_mod_cast hi.le
  simp only [med_diff_valid, med_diff_positions, testExt, rampMat, Bool.and_eq_true,
    decide_eq_true_eq]
  push_cast
  refine ⟨⟨?_, ?_, ?_, ?_⟩, ?_, ?_, ?_, ?_⟩ <;> norm_num <;> nlinarith

/-- C13, counterexample to the claim as stated: an image with `3` rows and `6`
columns, ring centre `(0, 2)` and `dradius = 100/2^31`.  Here `max_radius = 5`,
`n = num_of_rings = 107374182` and every `med_diff(src, centre, i, i+1, dradius)` with
`i < n-1` returns, but `100/dradius = 2^31` is outside the range of `int`:
`k = int(100/dradius)` is `-2^31`, which is smaller than `n`, the drift read
`correction[k]` is outside the vector, and no final correction vector is produced. -/
theorem C13_reference_index_overflows :
    1 ≤ MMDPolarRD_num_of_rings testExt (rampMat 3 6) (0, 2) (100 / 2 ^ 31) ∧
    toInt (100 / (100 / 2 ^ 31) : ℚ) <
      (MMDPolarRD_num_of_rings testExt (rampMat 3 6) (0, 2) (100 / 2 ^ 31) : Int) ∧
    (∀ i : Nat, i + 1 < MMDPolarRD_num_of_rings testExt (rampMat 3 6) (0, 2) (100 / 2 ^ 31) →
      ∃ v, med_diff testExt (rampMat 3 6) (0, 2) (i : Int) ((i : Int) + 1) (100 / 2 ^ 31)
        = .ok v) ∧
    MMDPolarRD_correction testExt (rampMat 3 6) (0, 2) (100 / 2 ^ 31) =
      .error .outOfBounds := by
  have hmed : ∀ i : Nat,
      i + 1 < MMDPolarRD_num_of_rings testExt (rampMat 3 6) (0, 2) (100 / 2 ^ 31) →
      ∃ v, med_diff testExt (rampMat 3 6) (0, 2) (i : Int) ((i : Int) + 1) (100 / 2 ^ 31)
        = .ok v := by
    intro i hi
    rw [num_of_rings_ramp_3x6] at hi
    apply med_diff_ok_of_valid _ _ _ _ _ _ 0
    · have := med_diff_circumference_ge testExt (i : Int) ((i : Int) + 1) (100 / 2 ^ 31 : ℚ)
      omega
    · exact med_diff_valid_ramp_3x6 i hi
  have hk : toInt (100 / (100 / 2 ^ 31) : ℚ) = -(2 ^ 31) := toInt_two_pow_31
  refine ⟨?_, ?_, hmed, ?_⟩
  · rw [num_of_rings_ramp_3x6]; norm_num
  · rw [hk]
    have : (0 : Int) ≤
        (MMDPolarRD_num_of_rings testExt (rampMat 3 6) (0, 2) (100 / 2 ^ 31) : Int) :=
      Int.natCast_nonneg _
    omega
  · rw [MMDPolarRD_correction_eq]
    apply MMD_correction_drift_fault
    · rw [num_of_rings_ramp_3x6]; norm_num
    · exact toUnsigned_lt _
    · intro ri hri
      have hri2 := hri
      rw [num_of_rings_ramp_3x6] at hri2
      rw [adjacent_diff_eq_med_diff _ _ _ _ ri (by omega)]
      exact hmed ri hri
    · left
      rw [hk]
      norm_num

section ClaimsE

variable {K : Type} [LinearOrderedField K] [FloorRing K]

theorem aoffset_bounds (i : Nat) :
    (-1 ≤ (aoffset i).1 ∧ (aoffset i).1 ≤ 1) ∧ (-1 ≤ (aoffset i).2 ∧ (aoffset i).2 ≤ 1) := by
  unfold aoffset
  split <;> simp

theorem axis_pixel_unit (i : Nat) :
    axis_pixel ((0 : K), (0 : K)) (((1 : Int) : K) * 1) i = ((aoffset i).1, (aoffset i).2) := by
  unfold axis_pixel
  obtain ⟨⟨h1, h2⟩, h3, h4⟩ := aoffset_bounds i
  have e1 : (0 : K) + ((1 : Int) : K) * 1 * (((aoffset i).1 : Int) : K) =
      (((aoffset i).1 : Int) : K) := by push_cast; ring
  have e2 : (0 : K) + ((1 : Int) : K) * 1 * (((aoffset i).2 : Int) : K) =
      (((aoffset i).2 : Int) : K) := by push_cast; ring
  simp only [e1, e2]
  rw [toInt_intCast _ (by omega) (by omega), toInt_intCast _ (by omega) (by omega)]

theorem quadrant_pixel_signs (cx cy x y : K) :
    (List.range 4).map (quadrant_pixel (cx, cy) x y) =
      [(toInt (cx - x), toInt (cy - y)), (toInt (cx + x), toInt (cy - y)),
        (toInt (cx + x), toInt (cy + y)), (toInt (cx + x), toInt (cy + y))] := by
  have e0 : quadrant_sign_x 0 = -1 := by decide
  have e1 : quadrant_sign_x 1 = 1 := by decide
  have e2 : quadrant_sign_x 2 = 1 := by decide
  have e3 : quadrant_sign_x 3 = 1 := by decide
  have f0 : quadrant_sign_y 0 = -1 := by decide
  have f1 : quadrant_sign_y 1 = -1 := by decide
  have f2 : quadrant_sign_y 2 = 1 := by decide
  have f3 : quadrant_sign_y 3 = 1 := by decide
  have hr : List.range 4 = [0, 1, 2, 3] := by decide
  rw [hr]
  simp only [List.map, quadrant_pixel, e0, e1, e2, e3, f0, f1, f2, f3, Int.cast_neg,
    Int.cast_one, mul_one, mul_neg, ← sub_eq_add_neg]

/-- C15 (the code departs from the claim). The sign pairs of the four quadrants are
`(-1,-1)`, `(+1,-1)`, `(+1,+1)`, `(+1,+1)`: `quadrant&&1` is `1` for the quadrants
`1`, `2` and `3`.  For an offset `(x, y)` and a centre `(cx, cy)` the loop therefore
samples the pixels `int(cx-x), int(cy-y)`, then `int(cx+x), int(cy-y)`, then
`int(cx+x), int(cy+y)` and again `int(cx+x), int(cy+y)`: the quadrant `(-1,+1)` is
never sampled and the quadrant `(+1,+1)` is sampled twice.  For integer coordinates
(below `2^30` in absolute value, so that the sums fit an `int`) these are the pixels
`(cx-x, cy-y)`, `(cx+x, cy-y)`, `(cx+x, cy+y)` and `(cx+x, cy+y)`; at the centre
`(1, 1)` and the offset `(1, 1)` they are `(0,0)`, `(2,0)`, `(2,2)`, `(2,2)`. -/
theorem C15_quadrant_signs_repeat :
    (List.range 4).map (fun q => (quadrant_sign_x q, quadrant_sign_y q)) =
      [(-1, -1), (1, -1), (1, 1), (1, 1)] ∧
    (∀ q, q < 4 → (quadrant_sign_x q, quadrant_sign_y q) ≠ (-1, 1)) ∧
    (∀ cx cy x y : ℚ,
      (List.range 4).map (quadrant_pixel (cx, cy) x y) =
        [(toInt (cx - x), toInt (cy - y)), (toInt (cx + x), toInt (cy - y)),
          (toInt (cx + x), toInt (cy + y)), (toInt (cx + x), toInt (cy + y))]) ∧
    (∀ cx cy x y : Int, |cx| < 2 ^ 30 → |cy| < 2 ^ 30 → |x| < 2 ^ 30 → |y| < 2 ^ 30 →
      (List.range 4).map (quadrant_pixel (((cx : Int) : ℚ), ((cy : Int) : ℚ)) (x : ℚ) (y : ℚ)) =
        [(cx - x, cy - y), (cx + x, cy - y), (cx + x, cy + y), (cx + x, cy + y)]) ∧
    (List.range 4).map (quadrant_pixel (((1 : Int) : ℚ), ((1 : Int) : ℚ)) ((1 : Int) : ℚ)
      ((1 : Int) : ℚ)) = [(0, 0), (2, 0), (2, 2), (2, 2)] := by
  have hsigns : (List.range 4).map (fun q => (quadrant_sign_x q, quadrant_sign_y q)) =
      [(-1, -1), (1, -1), (1, 1), (1, 1)] := by decide
  refine ⟨hsigns, ?_, fun cx cy x y => quadrant_pixel_signs cx cy x y, ?_, ?_⟩
  · intro q hq
    interval_cases q <;> decide
  · intro cx cy x y hcx hcy hx hy
    obtain ⟨a1, a2⟩ := abs_lt.mp hcx
    obtain ⟨b1, b2⟩ := abs_lt.mp hcy
    obtain ⟨c1, c2⟩ := abs_lt.mp hx
    obtain ⟨d1, d2⟩ := abs_lt.mp hy
    rw [quadrant_pixel_signs]
    have e1 : ((cx : Int) : ℚ) - (x : ℚ) = ((cx - x : Int) : ℚ) := by push_cast; ring
    have e2 : ((cx : Int) : ℚ) + (x : ℚ) = ((cx + x : Int) : ℚ) := by push_cast; ring
    have e3 : ((cy : Int) : ℚ) - (y : ℚ) = ((cy - y : Int) : ℚ) := by push_cast; ring
    have e4 : ((cy : Int) : ℚ) + (y : ℚ) = ((cy + y : Int) : ℚ) := by push_cast; ring
    rw [e1, e2, e3, e4, toInt_intCast _ (by omega) (by omega),
      toInt_intCast _ (by omega) (by omega), toInt_intCast _ (by omega) (by omega),
      toInt_intCast _ (by omega) (by omega)]
  · rw [quadrant_pixel_signs]
    have h0 : (((1 : Int) : ℚ) - ((1 : Int) : ℚ)) = ((0 : Int) : ℚ) := by norm_num
    have h2 : (((1 : Int) : ℚ) + ((1 : Int) : ℚ)) = ((2 : Int) : ℚ) := by norm_num
    rw [h0, h2, toInt_intCast 0 (by norm_num) (by norm_num),
      toInt_intCast 2 (by norm_num) (by norm_num)]


theorem avgI_offset_fault (E : Ext K) (m : Mat) (ring_center : K × K) (radius dr x y : K)
    (acc : K × K) (e : Fault)
    (h : avgI_offset E m ring_center radius dr x y acc = .error e) : e = .outOfBounds := by
  unfold avgI_offset at h
  dsimp only at h
  split at h
  · simp at h
  · obtain ⟨q, t, hq⟩ := forUp_error _ e _ _ _ h
    exact avgI_sample_fault _ _ _ _ _ hq

/-- C16 (the code departs from the claim). The range check of `avgI_on_rings`
compares `pixel_x` with `m.rows` and `pixel_y` with `m.cols`, but the read is
`m(pixel_y, pixel_x)`: on an image with 1 row and 3 columns, ring centre `(0, 0)`,
ring `1` of thickness `1`, the axis sample `(pixel_x, pixel_y) = (0, 1)` passes the
check and reads row `1` of a one-row image; the call faults, whatever the library
functions compute. -/
theorem C16_range_check_admits_read_outside (E : Ext K) :
    axis_pixel ((0 : K), (0 : K)) (((1 : Int) : K) * 1) 3 = (0, 1) ∧
    avgI_range_check (constMat 1 3 7) 0 1 = true ∧
    ¬ ((1 : Int) < ((constMat 1 3 7).rows : Int)) ∧
    (constMat 1 3 7).read 1 0 = .error .outOfBounds ∧
    avgI_on_rings E (constMat 1 3 7) (0, 0) 1 1 = .error .outOfBounds := by
  have hax : ∀ i, axis_pixel ((0 : K), (0 : K)) (((1 : Int) : K) * 1) i =
      ((aoffset i).1, (aoffset i).2) := fun i => axis_pixel_unit i
  have hread : (constMat 1 3 7).read 1 0 = .error .outOfBounds := rfl
  refine ⟨by rw [hax]; rfl, by decide, by decide, hread, ?_⟩
  unfold avgI_on_rings
  rw [if_neg (by simp)]
  dsimp only
  generalize hq : (forUp _ 0 _ ((0 : K), (0 : K)) : Except Fault (K × K)) = r
  cases r with
  | error e =>
    rw [bind_error]
    obtain ⟨i, t, hi⟩ := forUp_error _ e _ _ _ hq
    obtain ⟨j, t1, hj⟩ := forUp_error _ e _ _ _ hi
    rw [avgI_offset_fault E _ _ _ _ _ _ _ e hj]
  | ok acc =>
    rw [bind_ok]
    have h0 : avgI_sample (constMat 1 3 7)
        (axis_pixel ((0 : K), (0 : K)) (((1 : Int) : K) * 1) 0) (1 : K) acc = .ok acc := by
      apply avgI_sample_skip; rw [hax]; decide
    have h1 : avgI_sample (constMat 1 3 7)
        (axis_pixel ((0 : K), (0 : K)) (((1 : Int) : K) * 1) 1) (1 : K) acc = .ok acc := by
      apply avgI_sample_skip; rw [hax]; decide
    have h2 : avgI_sample (constMat 1 3 7)
        (axis_pixel ((0 : K), (0 : K)) (((1 : Int) : K) * 1) 2) (1 : K) acc = .ok acc := by
      apply avgI_sample_skip; rw [hax]; decide
    have h3 : avgI_sample (constMat 1 3 7)
        (axis_pixel ((0 : K), (0 : K)) (((1 : Int) : K) * 1) 3) (1 : K) acc =
          .error .outOfBounds := by
      apply avgI_sample_out
      · rw [hax]; decide
      · rw [hax]; rfl
    simp only [forUp, h0, h1, h2, h3, bind_error]


theorem reference_inside (M dradius : K) (hd : 0 < dradius) (h1 : 100 + dradius ≤ M)
    (h2 : M / dradius < 2 ^ 32) (h3 : 100 / dradius < 2 ^ 31) :
    0 ≤ toInt (100 / dradius) ∧ toInt (100 / dradius) < (toUnsigned (M / dradius) : Int) := by
  have hM : 0 ≤ M := by linarith
  have hq : 0 ≤ M / dradius := div_nonneg hM hd.le
  have hq1 : (0 : K) ≤ 100 / dradius := by positivity
  have hk : toInt (100 / dradius) = ⌊100 / dradius⌋ := toInt_eq_floor _ hq1 h3
  have hn : truncate (M / dradius) = ⌊M / dradius⌋ := truncate_of_nonneg _ hq
  have hk0 : 0 ≤ ⌊100 / dradius⌋ := Int.floor_nonneg.mpr hq1
  have hfl0 : 0 ≤ ⌊M / dradius⌋ := Int.floor_nonneg.mpr hq
  have hfl1 : ⌊M / dradius⌋ < 2 ^ 32 := by
    rw [Int.floor_lt]; exact_mod_cast h2
  have hstep : ⌊100 / dradius⌋ + 1 ≤ ⌊M / dradius⌋ := by
    rw [← Int.floor_add_one]
    apply Int.floor_le_floor
    rw [div_add_one hd.ne']
    exact div_le_div_of_nonneg_right h1 hd.le
  unfold toUnsigned
  rw [hn, hk]
  have hmod : ⌊M / dradius⌋ % 2 ^ 32 = ⌊M / dradius⌋ := Int.emod_eq_of_lt hfl0 hfl1
  rw [hmod, Int.toNat_of_nonneg hfl0]
  omega

theorem reference_outside (M dradius : K) (hd : 0 < dradius) (h0 : 0 ≤ M) (h1 : M < 100) :
    toInt (100 / dradius) < 0 ∨ (toUnsigned (M / dradius) : Int) ≤ toInt (100 / dradius) := by
  have hq : 0 ≤ M / dradius := div_nonneg h0 hd.le
  have hq1 : (0 : K) ≤ 100 / dradius := by positivity
  by_cases h3 : 100 / dradius < 2 ^ 31
  · right
    have hk : toInt (100 / dradius) = ⌊100 / dradius⌋ := toInt_eq_floor _ hq1 h3
    have hn : truncate (M / dradius) = ⌊M / dradius⌋ := truncate_of_nonneg _ hq
    have hfl0 : 0 ≤ ⌊M / dradius⌋ := Int.floor_nonneg.mpr hq
    have hmono : ⌊M / dradius⌋ ≤ ⌊100 / dradius⌋ :=
      Int.floor_le_floor (div_le_div_of_nonneg_right h1.le hd.le)
    unfold toUnsigned
    rw [hn, hk]
    have hmod0 : 0 ≤ ⌊M / dradius⌋ % 2 ^ 32 := Int.emod_nonneg _ (by norm_num)
    have hmod1 : ⌊M / dradius⌋ % 2 ^ 32 ≤ ⌊M / dradius⌋ := by omega
    rw [Int.toNat_of_nonneg hmod0]
    omega
  · left
    rw [toInt_of_overflow _ (not_lt.mp h3)]
    norm_num

theorem sqrtQ_62500 : sqrtQ 62500 = 250 := by
  have := sqrtQ_sq 250
  norm_num at this
  exact this

theorem sqrtQ_2500 : sqrtQ 2500 = 50 := by
  have := sqrtQ_sq 50
  norm_num at this
  exact this

theorem max_radius_squre_150x200 :
    max_radius_squre ((0 : ℚ), (0 : ℚ)) (150, 200) = 62500 := by
  simp only [max_radius_squre, corner, List.foldl]
  norm_num

theorem max_radius_squre_30x40 :
    max_radius_squre ((0 : ℚ), (0 : ℚ)) (30, 40) = 2500 := by
  simp only [max_radius_squre, corner, List.foldl]
  norm_num

theorem max_radius_90x120 : MMDPolarRD_max_radius testExt (constMat 90 120 7) (0, 0) = 150 := by
  unfold MMDPolarRD_max_radius max_ring_radius
  simp only [testExt, constMat, Nat.cast_ofNat]
  rw [max_radius_squre_90x120, sqrtQ_22500]

theorem max_radius_30x40 : MMDPolarRD_max_radius testExt (constMat 30 40 7) (0, 0) = 50 := by
  unfold MMDPolarRD_max_radius max_ring_radius
  simp only [testExt, constMat, Nat.cast_ofNat]
  rw [max_radius_squre_30x40, sqrtQ_2500]

theorem max_radius_150x200 :
    MMDPolarRD_max_radius testExt (constMat 150 200 7) (0, 0) = 250 := by
  unfold MMDPolarRD_max_radius max_ring_radius
  simp only [testExt, constMat, Nat.cast_ofNat]
  rw [max_radius_squre_150x200, sqrtQ_62500]

/-- C17 (as amended). In `MMDPolarRD` (both overloads), for every image, centre and
`dradius > 0`: the drift read `correction[int(100/dradius)]` is within the correction
vector, `0 <= int(100/dradius) < num_of_rings = unsigned(max_radius/dradius)`, whenever
`max_radius >= 100 + dradius`, `max_radius/dradius < 2^32` (the range of `unsigned`)
and `100/dradius < 2^31` (the range of `int`); it is outside the vector, and the
computation of the vector faults (in the 3D overload: for every slice of a volume of
at least two slices), whenever `0 <= max_radius < 100`; and
`max_radius < 100` holds for every `64 x 64` image whose ring centre lies inside the
image (`max_radius` being the non-negative square root of `max_radius_squre`). -/
theorem C17_drift_read_range (E : Ext K) (dradius : K) (hd : 0 < dradius) :
    (∀ (src : Mat) (c : K × K),
      (100 + dradius ≤ MMDPolarRD_max_radius E src c →
        MMDPolarRD_max_radius E src c / dradius < 2 ^ 32 →
        100 / dradius < 2 ^ 31 →
        0 ≤ toInt (100 / dradius) ∧
        toInt (100 / dradius) < (MMDPolarRD_num_of_rings E src c dradius : Int)) ∧
      (0 ≤ MMDPolarRD_max_radius E src c → MMDPolarRD_max_radius E src c < 100 →
        ¬ (0 ≤ toInt (100 / dradius) ∧
          toInt (100 / dradius) < (MMDPolarRD_num_of_rings E src c dradius : Int)) ∧
        ∃ e, MMDPolarRD_correction E src c dradius = .error e) ∧
      (src.rows = 64 → src.cols = 64 → 0 ≤ c.1 → c.1 ≤ 64 → 0 ≤ c.2 → c.2 ≤ 64 →
        0 ≤ MMDPolarRD_max_radius E src c →
        MMDPolarRD_max_radius E src c * MMDPolarRD_max_radius E src c =
          max_radius_squre c (64, 64) →
        MMDPolarRD_max_radius E src c < 100)) ∧
    (∀ (src : Data3D) (c1 c2 : K × K) (z : Nat),
      (100 + dradius ≤ MMDPolarRD3D_max_radius E src c1 c2 →
        MMDPolarRD3D_max_radius E src c1 c2 / dradius < 2 ^ 32 →
        100 / dradius < 2 ^ 31 →
        0 ≤ toInt (100 / dradius) ∧
        toInt (100 / dradius) < (MMDPolarRD3D_num_of_rings E src c1 c2 dradius : Int)) ∧
      (0 ≤ MMDPolarRD3D_max_radius E src c1 c2 → MMDPolarRD3D_max_radius E src c1 c2 < 100 →
        ¬ (0 ≤ toInt (100 / dradius) ∧
          toInt (100 / dradius) < (MMDPolarRD3D_num_of_rings E src c1 c2 dradius : Int)) ∧
        (2 ≤ src.SZ → z < src.SZ →
          ∃ e, MMDPolarRD3D_correction E src c1 c2 dradius z = .error e))) := by
  constructor
  · intro src c
    refine ⟨?_, ?_, ?_⟩
    · intro h1 h2 h3
      exact reference_inside _ dradius hd h1 h2 h3
    · intro h0 h1
      have hout := reference_outside _ dradius hd h0 h1
      refine ⟨?_, MMD_correction_reference_outside E src c dradius _ hout⟩
      rintro ⟨ha, hb⟩
      rcases hout with hout | hout
      · omega
      · exact absurd hb (not_lt.mpr hout)
    · intro hr hc h1 h2 h3 h4 h0 hsq
      have hle := max_radius_squre_le_64 c h1 h2 h3 h4
      by_contra hcon
      have hge : (100 : K) ≤ MMDPolarRD_max_radius E src c := not_lt.mp hcon
      nlinarith
  · intro src c1 c2 z
    refine ⟨?_, ?_⟩
    · intro h1 h2 h3
      exact reference_inside _ dradius hd h1 h2 h3
    · intro h0 h1
      have hout := reference_outside _ dradius hd h0 h1
      refine ⟨?_, fun _ _ => MMD_correction_reference_outside E (src.getMat z) _ dradius _ hout⟩
      rintro ⟨ha, hb⟩
      rcases hout with hout | hout
      · omega
      · exact absurd hb (not_lt.mpr hout)

theorem sqrtQ_3600 : sqrtQ 3600 = 60 := by
  have := sqrtQ_sq 60
  norm_num at this
  exact this

theorem max_radius_squre_64x64_at_48_36 :
    max_radius_squre ((48 : ℚ), (36 : ℚ)) (64, 64) = 3600 := by
  simp only [max_radius_squre, corner, List.foldl]
  norm_num

theorem max_radius_64x64_at_48_36 :
    MMDPolarRD_max_radius testExt (constMat 64 64 7) (48, 36) = 60 := by
  unfold MMDPolarRD_max_radius max_ring_radius
  simp only [testExt, constMat, Nat.cast_ofNat]
  rw [max_radius_squre_64x64_at_48_36, sqrtQ_3600]

/-- C17, the amended claim at concrete inputs with `dradius = 50`: a `90 x 120` image
with the ring centre `(0, 0)` has `max_radius = 150` and the reference index `2` is
inside its `3` entries; a `30 x 40` image with the ring centre `(0, 0)` has
`max_radius = 50` and the reference index is outside; a `64 x 64` image with the ring
centre `(48, 36)` has `max_radius = 60 < 100`. -/
theorem C17_drift_read_at_three_images :
    (0 ≤ toInt (100 / 50 : ℚ) ∧
      toInt (100 / 50 : ℚ) <
        (MMDPolarRD_num_of_rings testExt (constMat 90 120 7) (0, 0) 50 : Int)) ∧
    ¬ (0 ≤ toInt (100 / 50 : ℚ) ∧
      toInt (100 / 50 : ℚ) <
        (MMDPolarRD_num_of_rings testExt (constMat 30 40 7) (0, 0) 50 : Int)) ∧
    MMDPolarRD_max_radius testExt (constMat 64 64 7) (48, 36) < 100 := by
  have h := (C17_drift_read_range testExt (50 : ℚ) (by norm_num)).1
  refine ⟨(h (constMat 90 120 7) (0, 0)).1 ?_ ?_ ?_,
    ((h (constMat 30 40 7) (0, 0)).2.1 ?_ ?_).1,
    (h (constMat 64 64 7) (48, 36)).2.2 rfl rfl ?_ ?_ ?_ ?_ ?_ ?_⟩
  · rw [max_radius_90x120]; norm_num
  · rw [max_radius_90x120]; norm_num
  · norm_num
  · rw [max_radius_30x40]; norm_num
  · rw [max_radius_30x40]; norm_num
  · norm_num
  · norm_num
  · norm_num
  · norm_num
  · rw [max_radius_64x64_at_48_36]; norm_num
  · rw [max_radius_64x64_at_48_36, max_radius_squre_64x64_at_48_36]; norm_num

/-- C17, counterexample to the claim as stated: a `150 x 200` image, ring centre
`(0, 0)` and `dradius = 250/2^32`.  Here `max_radius = 250 >= 100 + dradius`, but
`max_radius/dradius = 2^32` does not fit the 32 bits of `unsigned`: `num_of_rings`
is `0` and the reference index, which is `int(100/dradius) = 1717986918`, is not
inside the vector. -/
theorem C17_reference_outside_when_ratio_overflows :
    (0 : ℚ) < 250 / 2 ^ 32 ∧
    100 + 250 / 2 ^ 32 ≤ MMDPolarRD_max_radius testExt (constMat 150 200 7) (0, 0) ∧
    MMDPolarRD_num_of_rings testExt (constMat 150 200 7) (0, 0) (250 / 2 ^ 32) = 0 ∧
    toInt (100 / (250 / 2 ^ 32) : ℚ) = 1717986918 ∧
    ¬ (toInt (100 / (250 / 2 ^ 32) : ℚ) <
      (MMDPolarRD_num_of_rings testExt (constMat 150 200 7) (0, 0) (250 / 2 ^ 32) : Int)) := by
  have hn : MMDPolarRD_num_of_rings testExt (constMat 150 200 7) (0, 0) (250 / 2 ^ 32) = 0 := by
    have hm := max_radius_150x200
    unfold MMDPolarRD_max_radius at hm
    unfold MMDPolarRD_num_of_rings
    dsimp only
    rw [hm]
    rw [show (250 / (250 / 2 ^ 32) : ℚ) = ((2 ^ 32 : ℕ) : ℚ) by norm_num]
    unfold toUnsigned
    rw [truncate_natCast]
    have : (((2 ^ 32 : ℕ) : Int)) % 2 ^ 32 = 0 := by
      push_cast
    rw [this]
    rfl
  have hk : toInt (100 / (250 / 2 ^ 32) : ℚ) = 1717986918 := by
    rw [toInt_eq_floor _ (by positivity) (by norm_num), Int.floor_eq_iff]
    norm_num
  refine ⟨by positivity, ?_, hn, hk, ?_⟩
  · rw [max_radius_150x200]; norm_num
  · rw [hn, hk]
    norm_num


theorem sijbers_uses_sijbers_rings (E : Ext K) (st : Nat → Data3D) (src dst : Nat) (dr : K)
    (ring_centre : K × K) (isGaussianBlur : Bool) :
    sijbers E st src dst dr ring_centre isGaussianBlur =
      (let st1 := if dst ≠ src then
          Function.update st dst ((st dst).resize (st src).get_size) else st
       let mean := if isGaussianBlur then E.GaussianBlur3D (st1 src) (2 * 15 + 1)
          else E.meanBlur3D (st1 src) 15
       let diff := E.subtract3D (st1 src) mean
       let num_of_rings := toUnsigned (max_ring_radius E.sqrt ring_centre
          (((st1 src).SX : K), ((st1 src).SY : K)) / dr)
       forUp (fun z (s : (Nat → Data3D) × List K) => do
          let correction ← sijbers_rings E (diff.getMat z) ring_centre dr num_of_rings s.2
          let d ← correct_image3D E (s.1 src) (s.1 dst) correction z ring_centre dr
          pure (Function.update s.1 dst d, correction)) 0 (st1 src).SZ
          (st1, List.replicate num_of_rings 0)) := rfl

end ClaimsE

end RingsReduction
